import Mathlib

/-!
# Verification of the 1brc-workshop parallel streaming aggregation engine

Shallow embedding of the repository's core engine, primarily
`src/entries/sergei_romanov_v2.py` (chunk planner `get_file_chunks`, worker
scanner `_process_file_chunk`, merger and formatter in `process_file`), with
the sibling variant `src/entries/sergei_romanov_v1.py` (`map_chunk`,
`reduce_results`) where the claims reference it.

Bytes are modelled as `List ℕ` (byte values; the input is ASCII per the spec).
Python's arbitrary-precision integers are `ℤ`/`ℕ`.  Python `float` is IEEE-754
binary64; the conversions the code performs on doubles (decimal string →
double, double division and multiplication, `:.1f` rendering) are all
correctly rounded, so they are embedded exactly as round-to-nearest-even of
the corresponding rational numbers to 53-bit significands.
-/

namespace OneBRC

/-- The line terminator byte `\n`. -/
def nlByte : ℕ := 10

/-- The field delimiter byte `;`. -/
def semiByte : ℕ := 59

/-- Bytes of an ASCII string literal, for concrete test inputs. -/
def strBytes (s : String) : List ℕ := s.toList.map Char.toNat

/-! ## Correctly rounded binary64 arithmetic, embedded exactly

A finite positive double is `m * 2^(e-52)` with `2^52 ≤ m < 2^53` (we never
need subnormals: every number the program produces in its value domain is a
normal double).  `natRound64 a b` rounds the positive rational `a / b` to
nearest-even at 53 significant bits and returns the pair `(m, e)`. -/

/-- Round `a / b` (with `b > 0`) to the nearest natural number, ties to even.
This is the IEEE-754 default rounding applied at integer granularity. -/
def rhe (a b : ℕ) : ℕ :=
  let q := a / b
  let r := a % b
  if 2 * r < b then q
  else if b < 2 * r then q + 1
  else if q % 2 = 0 then q else q + 1

/-- `true` iff `2 ^ e ≤ a / b`, for positive naturals `a`, `b` and `e : ℤ`. -/
def le2pow (e : ℤ) (a b : ℕ) : Bool :=
  if 0 ≤ e then b * 2 ^ e.toNat ≤ a else b ≤ a * 2 ^ (-e).toNat

/-- `⌊log₂ n⌋` by structural recursion on a fuel argument (so that the kernel
can evaluate it; `Nat.log2` itself is defined by well-founded recursion). -/
def log2F : ℕ → ℕ → ℕ
  | 0, _ => 0
  | fuel + 1, n => if n ≤ 1 then 0 else log2F fuel (n / 2) + 1

/-- `⌊log₂ n⌋` for `n ≥ 1`. -/
def log2s (n : ℕ) : ℕ := log2F n n

/-- `⌊log₂ (a / b)⌋` for positive naturals `a`, `b`.  The floor lies in
`{log₂ a - log₂ b - 1, log₂ a - log₂ b}`, so testing one candidate decides. -/
def floorLog2Rat (a b : ℕ) : ℤ :=
  let e0 : ℤ := (log2s a : ℤ) - (log2s b : ℤ)
  if le2pow e0 a b then e0 else e0 - 1

/-- Round the positive rational `a / b` to a binary64 value, returned as a
significand/exponent pair `(m, e)` meaning `m * 2^(e-52)`. -/
def natRound64 (a b : ℕ) : ℕ × ℤ :=
  if a = 0 ∨ b = 0 then (0, 52)
  else
    let e := floorLog2Rat a b
    let m := if e ≤ 52 then rhe (a * 2 ^ (52 - e).toNat) b
             else rhe a (b * 2 ^ (e - 52).toNat)
    (m, e)

/-- A finite binary64 value, exactly: sign, significand and exponent; the
denoted number is `(-1)^neg * m * 2^(e-52)`. -/
structure Dbl where
  neg : Bool
  m : ℕ
  e : ℤ
  deriving DecidableEq, Repr

/-- The correctly rounded binary64 quotient of `a / b` (CPython division of
arbitrary-precision integers is correctly rounded; decimal-token parsing is
the case `b = 10^k`). -/
def mkDbl (a : ℤ) (b : ℕ) : Dbl :=
  ⟨decide (a < 0), (natRound64 a.natAbs b).1, (natRound64 a.natAbs b).2⟩

/-- The correctly rounded binary64 division of a double by the exact double
`10.0`. -/
def div10D (d : Dbl) : Dbl :=
  if 52 ≤ d.e then
    ⟨d.neg, (natRound64 (d.m * 2 ^ (d.e - 52).toNat) 10).1,
      (natRound64 (d.m * 2 ^ (d.e - 52).toNat) 10).2⟩
  else
    ⟨d.neg, (natRound64 d.m (10 * 2 ^ (52 - d.e).toNat)).1,
      (natRound64 d.m (10 * 2 ^ (52 - d.e).toNat)).2⟩

/-- `int(float(t) * 10)` for a value token `t` denoting `n / 10`, `n : ℕ`:
`float(t)` is the correctly rounded double of `n/10`; the product with the
exact double `10.0` is rounded again; `int` truncates toward zero. -/
def pyConvNat (n : ℕ) : ℕ :=
  if n = 0 then 0
  else
    let p := natRound64 n 10
    let num := if p.2 ≤ 52 then 10 * p.1 else 10 * p.1 * 2 ^ (p.2 - 52).toNat
    let den := if p.2 ≤ 52 then 2 ^ (52 - p.2).toNat else 1
    let p2 := natRound64 num den
    if 52 ≤ p2.2 then p2.1 * 2 ^ (p2.2 - 52).toNat else p2.1 / 2 ^ (52 - p2.2).toNat

/-- `int(float(t) * 10)` for a signed one-fractional-digit token denoting
`x / 10`.  Decimal parsing, multiplication and `int` truncation are all
symmetric in sign. -/
def pyConv (x : ℤ) : ℤ :=
  if x < 0 then -(pyConvNat x.natAbs : ℤ) else (pyConvNat x.natAbs : ℤ)

/-! ## `:.1f` rendering -/

/-- Python `f"{x:.1f}"` on a double: one fractional digit, rounding the
exact value of the double half-to-even, with the sign taken from the value
(so a negative value rounding to zero renders as `-0.0`).  The scaled
magnitude `10 * |x|` is `10 * m / 2^(52-e)`; rounding it half-to-even is
sign-symmetric. -/
def fmt1 (d : Dbl) : String :=
  let t : ℕ :=
    if 52 ≤ d.e then 10 * d.m * 2 ^ (d.e - 52).toNat
    else rhe (10 * d.m) (2 ^ (52 - d.e).toNat)
  let s := if d.neg then "-" else ""
  s ++ toString (t / 10) ++ "." ++ toString (t % 10)

/-! ## Data model: accumulator entries and the per-chunk mapping

The source stores `[min, max, sum, count]` lists in a Python `dict`; we use a
structure and an association list with the dict's semantics (lookup by key,
in-place update keeps the position, new keys are appended). -/

/-- Per-key accumulator entry, `[min, max, sum, count]` in the source. -/
structure Stats where
  min : ℤ
  max : ℤ
  sum : ℤ
  count : ℕ
  deriving DecidableEq, Repr

/-- The entry created on first observation of a key
(`[value, value, value, 1]`). -/
def single (v : ℤ) : Stats := ⟨v, v, v, 1⟩

/-- The scanner's update for one further observation of an existing key
(v2 `_process_file_chunk` lines 141–148). -/
def observe (s : Stats) (v : ℤ) : Stats :=
  { min := if v < s.min then v else s.min
    max := if s.max < v then v else s.max
    sum := s.sum + v
    count := s.count + 1 }

/-- Merging two entries for the same key (v2 `process_file` lines 183–189,
v1 `reduce_results` lines 81–87): componentwise min / max, added sum and
count.  First argument is the accumulated entry, second the incoming one. -/
def mergeStats (a b : Stats) : Stats :=
  { min := if b.min < a.min then b.min else a.min
    max := if a.max < b.max then b.max else a.max
    sum := a.sum + b.sum
    count := a.count + b.count }

/-- Keys are byte sequences. -/
abbrev Key := List ℕ

/-- A partial or final result: Python `dict` as an association list in
insertion order. -/
abbrev AList := List (Key × Stats)

/-- Python `result[location]` lookup (first match; dict keys are unique). -/
def lookupA (d : AList) (k : Key) : Option Stats :=
  match d with
  | [] => none
  | (k2, s) :: rest => if k2 = k then some s else lookupA rest k

/-- In-place update of the entry of an existing key (keeps its position). -/
def setA (d : AList) (k : Key) (s : Stats) : AList :=
  match d with
  | [] => []
  | (k2, s2) :: rest => if k2 = k then (k2, s) :: rest else (k2, s2) :: setA rest k s

/-- One completed record: update the chunk mapping with observation `v` for
key `k` (the `try result[location] ... except KeyError` block). -/
def updateA (d : AList) (k : Key) (v : ℤ) : AList :=
  match lookupA d k with
  | some s => setA d k (observe s v)
  | none => d ++ [(k, single v)]

/-! ## The worker scanner (v2 `_process_file_chunk`)

`data.index(b";", index)` / `data.index(b"\n", index)` search for the first
occurrence of a byte from the current position; on `ValueError` the
unconsumed remainder becomes `tail` and is prepended to the next read.
`splitAtByte b data` returns the part before the first occurrence of `b` and
the part after it, or `none` when `b` does not occur. -/

/-- Split at the first occurrence of byte `b`. -/
def splitAtByte (b : ℕ) : List ℕ → Option (List ℕ × List ℕ)
  | [] => none
  | x :: xs =>
    if x = b then some ([], xs)
    else (splitAtByte b xs).map (fun p => (x :: p.1, p.2))

/-- The scanner's inner `while data:` loop over one in-memory byte sequence.
State: the chunk mapping, and `location` (`none` while scanning a key,
`some key` while scanning a value).  Returns the final mapping, the final
`location`, and the unconsumed `tail`.  Structural recursion on a fuel
argument (each step consumes at least one byte, so `data.length + 1` fuel
always suffices). -/
def scanLoopF (parse : List ℕ → ℤ) :
    ℕ → AList → Option Key → List ℕ → AList × Option Key × List ℕ
  | 0, res, loc, data => (res, loc, data)
  | fuel + 1, res, none, data =>
    match splitAtByte semiByte data with
    | none => (res, none, data)
    | some (k, rest) => scanLoopF parse fuel res (some k) rest
  | fuel + 1, res, some k, data =>
    match splitAtByte nlByte data with
    | none => (res, some k, data)
    | some (v, rest) => scanLoopF parse fuel (updateA res k (parse v)) none rest

/-- The inner loop with always-sufficient fuel. -/
def scanLoop (parse : List ℕ → ℤ) (res : AList) (loc : Option Key)
    (data : List ℕ) : AList × Option Key × List ℕ :=
  scanLoopF parse (data.length + 1) res loc data

/-- The read-buffer decomposition of a chunk: blocks of `bsize` bytes, the
last one possibly shorter (the `blocksize`/`byte_count` bookkeeping of the
outer `while byte_count > 0:` loop). -/
def blocksOfF : ℕ → ℕ → List ℕ → List (List ℕ)
  | 0, _, _ => []
  | fuel + 1, bsize, l =>
    if l = [] then [] else l.take bsize :: blocksOfF fuel bsize (l.drop bsize)

/-- `blocksOf bsize l` with always-sufficient fuel (requires `1 ≤ bsize`). -/
def blocksOf (bsize : ℕ) (l : List ℕ) : List (List ℕ) :=
  blocksOfF (l.length + 1) bsize l

/-- The outer loop of `_process_file_chunk`: fold the inner loop over the
buffer reads, prepending the retained `tail` to each new read. -/
def bufRun (parse : List ℕ → ℤ) (st : AList × Option Key × List ℕ)
    (blocks : List (List ℕ)) : AList × Option Key × List ℕ :=
  blocks.foldl (fun st blk => scanLoop parse st.1 st.2.1 (st.2.2 ++ blk)) st

/-- `_process_file_chunk` on the bytes of one chunk, with read-buffer size
`bsize`: the returned mapping (the final `tail` and `location` are dropped
when the loop ends). -/
def procChunk (parse : List ℕ → ℤ) (bsize : ℕ) (c : List ℕ) : AList :=
  (bufRun parse ([], none, []) (blocksOf bsize c)).1

/-- The scanner run on a whole byte sequence in a single buffer. -/
def processStream (parse : List ℕ → ℤ) (c : List ℕ) : AList :=
  (scanLoop parse [] none c).1

/-! ### `splitAtByte` specification -/

theorem splitAtByte_some_spec {b : ℕ} :
    ∀ {xs p q : List ℕ}, splitAtByte b xs = some (p, q) →
      xs = p ++ b :: q ∧ b ∉ p := by
  intro xs
  induction xs with
  | nil => intro p q h; simp [splitAtByte] at h
  | cons x xs ih =>
    intro p q h
    by_cases hx : x = b
    · subst hx
      simp [splitAtByte] at h
      obtain ⟨hp, hq⟩ := h
      subst hp; subst hq
      simp
    · simp only [splitAtByte, if_neg hx] at h
      cases hsp : splitAtByte b xs with
      | none => rw [hsp] at h; simp at h
      | some pq =>
        rcases pq with ⟨p1, q1⟩
        rw [hsp] at h
        simp only [Option.map_some', Option.some.injEq, Prod.mk.injEq] at h
        obtain ⟨hp, hq⟩ := h
        obtain ⟨h1, h2⟩ := ih hsp
        subst hq
        subst hp
        constructor
        · simp [h1]
        · intro hmem
          rcases List.mem_cons.mp hmem with h3 | h3
          · exact hx h3.symm
          · exact h2 h3

theorem splitAtByte_none_iff {b : ℕ} {xs : List ℕ} :
    splitAtByte b xs = none ↔ b ∉ xs := by
  induction xs with
  | nil => simp [splitAtByte]
  | cons x xs ih =>
    by_cases hx : x = b
    · subst hx; simp [splitAtByte]
    · simp only [splitAtByte, if_neg hx]
      constructor
      · intro h hmem
        cases hsp : splitAtByte b xs with
        | none =>
          rcases List.mem_cons.mp hmem with h3 | h3
          · exact hx h3.symm
          · exact (ih.mp hsp) h3
        | some pq => rw [hsp] at h; simp at h
      · intro hmem
        have hnot : b ∉ xs := fun h3 => hmem (List.mem_cons_of_mem _ h3)
        rw [ih.mpr hnot]
        rfl

theorem splitAtByte_append_none {b : ℕ} {xs : List ℕ} (ys : List ℕ)
    (h : splitAtByte b xs = none) :
    splitAtByte b (xs ++ ys) =
      (splitAtByte b ys).map (fun p => (xs ++ p.1, p.2)) := by
  induction xs with
  | nil =>
    simp only [List.nil_append]
    cases splitAtByte b ys with
    | none => rfl
    | some p => rfl
  | cons x xs ih =>
    have hx : ¬ x = b := by
      intro hx
      rw [splitAtByte_none_iff] at h
      exact h (by simp [hx])
    have hxs : splitAtByte b xs = none := by
      rw [splitAtByte_none_iff] at h ⊢
      exact fun hmem => h (by simp [hmem])
    rw [List.cons_append]
    show (if x = b then some ([], xs ++ ys)
          else (splitAtByte b (xs ++ ys)).map (fun p => (x :: p.1, p.2))) = _
    rw [if_neg hx, ih hxs]
    cases splitAtByte b ys with
    | none => rfl
    | some p => rfl

theorem splitAtByte_append_some {b : ℕ} {xs p q : List ℕ} (ys : List ℕ)
    (h : splitAtByte b xs = some (p, q)) :
    splitAtByte b (xs ++ ys) = some (p, q ++ ys) := by
  induction xs generalizing p q with
  | nil => simp [splitAtByte] at h
  | cons x xs ih =>
    by_cases hx : x = b
    · subst hx
      simp [splitAtByte] at h ⊢
      obtain ⟨hp, hq⟩ := h
      subst hp; subst hq; simp
    · simp only [splitAtByte, if_neg hx] at h
      cases hsp : splitAtByte b xs with
      | none => rw [hsp] at h; simp at h
      | some pq =>
        rcases pq with ⟨p1, q1⟩
        rw [hsp] at h
        simp only [Option.map_some', Option.some.injEq, Prod.mk.injEq] at h
        obtain ⟨hp, hq⟩ := h
        subst hq
        subst hp
        rw [List.cons_append]
        show (if x = b then some ([], xs ++ ys)
              else (splitAtByte b (xs ++ ys)).map (fun p => (x :: p.1, p.2))) = _
        rw [if_neg hx, ih hsp]
        rfl

theorem splitAtByte_some_length {b : ℕ} {xs p q : List ℕ}
    (h : splitAtByte b xs = some (p, q)) : q.length < xs.length := by
  obtain ⟨h1, _⟩ := splitAtByte_some_spec h
  subst h1
  simp
  omega

/-! ### Fuel irrelevance and one-step equations for the inner loop -/

theorem scanLoopF_congr (parse : List ℕ → ℤ) :
    ∀ (f g : ℕ) (res : AList) (loc : Option Key) (data : List ℕ),
      data.length < f → data.length < g →
      scanLoopF parse f res loc data = scanLoopF parse g res loc data := by
  intro f
  induction f with
  | zero => intro g res loc data hf; omega
  | succ f ih =>
    intro g res loc data hf hg
    cases g with
    | zero => omega
    | succ g =>
      cases loc with
      | none =>
        show (match splitAtByte semiByte data with
              | none => (res, none, data)
              | some (k, rest) => scanLoopF parse f res (some k) rest) =
             (match splitAtByte semiByte data with
              | none => (res, none, data)
              | some (k, rest) => scanLoopF parse g res (some k) rest)
        cases hsp : splitAtByte semiByte data with
        | none => rfl
        | some kr =>
          rcases kr with ⟨k, rest⟩
          have hlen := splitAtByte_some_length hsp
          exact ih g res (some k) rest (by omega) (by omega)
      | some k =>
        show (match splitAtByte nlByte data with
              | none => (res, some k, data)
              | some (v, rest) => scanLoopF parse f (updateA res k (parse v)) none rest) =
             (match splitAtByte nlByte data with
              | none => (res, some k, data)
              | some (v, rest) => scanLoopF parse g (updateA res k (parse v)) none rest)
        cases hsp : splitAtByte nlByte data with
        | none => rfl
        | some vr =>
          rcases vr with ⟨v, rest⟩
          have hlen := splitAtByte_some_length hsp
          exact ih g (updateA res k (parse v)) none rest (by omega) (by omega)

theorem scanLoop_none_eq (parse : List ℕ → ℤ) (res : AList) (data : List ℕ) :
    scanLoop parse res none data =
      match splitAtByte semiByte data with
      | none => (res, none, data)
      | some (k, rest) => scanLoop parse res (some k) rest := by
  show scanLoopF parse (data.length + 1) res none data = _
  rw [scanLoopF]
  cases hsp : splitAtByte semiByte data with
  | none => rfl
  | some kr =>
    rcases kr with ⟨k, rest⟩
    have hlen := splitAtByte_some_length hsp
    exact scanLoopF_congr parse data.length (rest.length + 1) res (some k) rest
      (by omega) (by omega)

theorem scanLoop_some_eq (parse : List ℕ → ℤ) (res : AList) (k : Key)
    (data : List ℕ) :
    scanLoop parse res (some k) data =
      match splitAtByte nlByte data with
      | none => (res, some k, data)
      | some (v, rest) => scanLoop parse (updateA res k (parse v)) none rest := by
  show scanLoopF parse (data.length + 1) res (some k) data = _
  rw [scanLoopF]
  cases hsp : splitAtByte nlByte data with
  | none => rfl
  | some vr =>
    rcases vr with ⟨v, rest⟩
    have hlen := splitAtByte_some_length hsp
    exact scanLoopF_congr parse data.length (rest.length + 1)
      (updateA res k (parse v)) none rest (by omega) (by omega)

/-! ### The inner loop composes across buffer boundaries -/

theorem scanLoop_append (parse : List ℕ → ℤ) :
    ∀ (n : ℕ) (xs : List ℕ), xs.length ≤ n →
      ∀ (res : AList) (loc : Option Key) (ys : List ℕ),
        scanLoop parse res loc (xs ++ ys) =
          (let t := scanLoop parse res loc xs
           scanLoop parse t.1 t.2.1 (t.2.2 ++ ys)) := by
  intro n
  induction n with
  | zero =>
    intro xs hxs res loc ys
    have hnil : xs = [] := List.length_eq_zero.mp (by omega)
    subst hnil
    cases loc with
    | none => rfl
    | some k => rfl
  | succ n ih =>
    intro xs hxs res loc ys
    cases loc with
    | none =>
      cases hsp : splitAtByte semiByte xs with
      | none =>
        rw [scanLoop_none_eq parse res xs, hsp]
      | some kr =>
        rcases kr with ⟨k, rest⟩
        rw [scanLoop_none_eq parse res (xs ++ ys), splitAtByte_append_some ys hsp]
        rw [scanLoop_none_eq parse res xs, hsp]
        have hlen := splitAtByte_some_length hsp
        exact ih rest (by omega) res (some k) ys
    | some k =>
      cases hsp : splitAtByte nlByte xs with
      | none =>
        rw [scanLoop_some_eq parse res k xs, hsp]
      | some vr =>
        rcases vr with ⟨v, rest⟩
        rw [scanLoop_some_eq parse res k (xs ++ ys), splitAtByte_append_some ys hsp]
        rw [scanLoop_some_eq parse res k xs, hsp]
        have hlen := splitAtByte_some_length hsp
        exact ih rest (by omega) (updateA res k (parse v)) none ys

/-- A state the inner loop has stopped in is not changed by running the loop
on its own tail again. -/
def StuckState (parse : List ℕ → ℤ) (st : AList × Option Key × List ℕ) : Prop :=
  scanLoop parse st.1 st.2.1 st.2.2 = st

theorem scanLoop_stuck (parse : List ℕ → ℤ) :
    ∀ (n : ℕ) (data : List ℕ), data.length ≤ n →
      ∀ (res : AList) (loc : Option Key),
        StuckState parse (scanLoop parse res loc data) := by
  intro n
  induction n with
  | zero =>
    intro data hdata res loc
    have hnil : data = [] := List.length_eq_zero.mp (by omega)
    subst hnil
    cases loc with
    | none =>
      have h0 : scanLoop parse res none [] = (res, none, []) := rfl
      unfold StuckState
      rw [h0]
      exact h0
    | some k =>
      have h0 : scanLoop parse res (some k) [] = (res, some k, []) := rfl
      unfold StuckState
      rw [h0]
      exact h0
  | succ n ih =>
    intro data hdata res loc
    cases loc with
    | none =>
      cases hsp : splitAtByte semiByte data with
      | none =>
        unfold StuckState
        rw [scanLoop_none_eq parse res data, hsp]
        show scanLoop parse res none data = (res, none, data)
        rw [scanLoop_none_eq parse res data, hsp]
      | some kr =>
        rcases kr with ⟨k, rest⟩
        rw [scanLoop_none_eq parse res data, hsp]
        have hlen := splitAtByte_some_length hsp
        exact ih rest (by omega) res (some k)
    | some k =>
      cases hsp : splitAtByte nlByte data with
      | none =>
        unfold StuckState
        rw [scanLoop_some_eq parse res k data, hsp]
        show scanLoop parse res (some k) data = (res, some k, data)
        rw [scanLoop_some_eq parse res k data, hsp]
      | some vr =>
        rcases vr with ⟨v, rest⟩
        rw [scanLoop_some_eq parse res k data, hsp]
        have hlen := splitAtByte_some_length hsp
        exact ih rest (by omega) (updateA res k (parse v)) none

theorem bufRun_join (parse : List ℕ → ℤ) :
    ∀ (blocks : List (List ℕ)) (st : AList × Option Key × List ℕ),
      StuckState parse st →
      bufRun parse st blocks =
        scanLoop parse st.1 st.2.1 (st.2.2 ++ blocks.flatten) := by
  intro blocks
  induction blocks with
  | nil =>
    intro st hst
    show st = scanLoop parse st.1 st.2.1 (st.2.2 ++ [])
    rw [List.append_nil]
    exact hst.symm
  | cons b bs ih =>
    intro st hst
    show bufRun parse (scanLoop parse st.1 st.2.1 (st.2.2 ++ b)) bs = _
    have hstuck : StuckState parse (scanLoop parse st.1 st.2.1 (st.2.2 ++ b)) :=
      scanLoop_stuck parse (st.2.2 ++ b).length (st.2.2 ++ b) le_rfl st.1 st.2.1
    rw [ih _ hstuck]
    rw [show (b :: bs).flatten = b ++ bs.flatten from rfl, ← List.append_assoc]
    rw [scanLoop_append parse (st.2.2 ++ b).length (st.2.2 ++ b) le_rfl]

theorem blocksOfF_join (bsize : ℕ) (hb : 1 ≤ bsize) :
    ∀ (f : ℕ) (l : List ℕ), l.length < f → (blocksOfF f bsize l).flatten = l := by
  intro f
  induction f with
  | zero => intro l hl; omega
  | succ f ih =>
    intro l hl
    show (if l = [] then []
          else l.take bsize :: blocksOfF f bsize (l.drop bsize)).flatten = l
    by_cases hnil : l = []
    · simp [hnil]
    · rw [if_neg hnil]
      have h1 : 1 ≤ l.length := List.length_pos.mpr hnil
      have hlen : (l.drop bsize).length < f := by
        rw [List.length_drop]
        omega
      rw [List.flatten_cons, ih (l.drop bsize) hlen, List.take_append_drop]

/-- Blocksize independence of the buffered scanner: for any read-buffer size
`bsize ≥ 1`, `_process_file_chunk` computes the same mapping as a single
scan of the whole chunk. -/
theorem procChunk_eq_processStream (parse : List ℕ → ℤ) (bsize : ℕ)
    (hb : 1 ≤ bsize) (c : List ℕ) :
    procChunk parse bsize c = processStream parse c := by
  show (bufRun parse ([], none, []) (blocksOf bsize c)).1 = _
  have hstuck : StuckState parse (([], none, []) : AList × Option Key × List ℕ) := by
    unfold StuckState
    rw [scanLoop_none_eq]
    rfl
  rw [bufRun_join parse (blocksOf bsize c) ([], none, []) hstuck]
  show (scanLoop parse [] none ([] ++ (blocksOfF (c.length + 1) bsize c).flatten)).1 = _
  rw [blocksOfF_join bsize hb (c.length + 1) c (by omega)]
  rfl

/-! ## Merge algebra -/

/-- The merge computes componentwise min and max and adds sums and counts. -/
theorem mergeStats_eq (a b : Stats) :
    mergeStats a b =
      ⟨min a.min b.min, max a.max b.max, a.sum + b.sum, a.count + b.count⟩ := by
  have h1 : (if b.min < a.min then b.min else a.min) = min a.min b.min := by
    rw [min_def]; split_ifs <;> omega
  have h2 : (if a.max < b.max then b.max else a.max) = max a.max b.max := by
    rw [max_def]; split_ifs <;> omega
  unfold mergeStats
  rw [h1, h2]

theorem mergeStats_comm (a b : Stats) : mergeStats a b = mergeStats b a := by
  rw [mergeStats_eq, mergeStats_eq, min_comm, max_comm, Int.add_comm,
    Nat.add_comm]

theorem mergeStats_assoc (a b c : Stats) :
    mergeStats (mergeStats a b) c = mergeStats a (mergeStats b c) := by
  simp only [mergeStats_eq]
  simp only [min_assoc, max_assoc, Int.add_assoc, Nat.add_assoc]

/-- The scanner's per-observation update is the merge with a fresh
single-observation entry. -/
theorem observe_eq_merge (s : Stats) (v : ℤ) :
    observe s v = mergeStats s (single v) := rfl

/-- Merge of optional entries: the combination the merger applies at one key
(`none` = key absent). -/
def optMerge : Option Stats → Option Stats → Option Stats
  | none, b => b
  | some a, none => some a
  | some a, some b => some (mergeStats a b)

theorem optMerge_none_left (b : Option Stats) : optMerge none b = b := rfl

theorem optMerge_none_right (a : Option Stats) : optMerge a none = a := by
  cases a <;> rfl

theorem optMerge_comm (a b : Option Stats) : optMerge a b = optMerge b a := by
  cases a <;> cases b <;> simp [optMerge, mergeStats_comm]

theorem optMerge_assoc (a b c : Option Stats) :
    optMerge (optMerge a b) c = optMerge a (optMerge b c) := by
  cases a <;> cases b <;> cases c <;> simp [optMerge, mergeStats_assoc]

/-! ## Association-list (Python dict) lemmas -/

/-- The keys of a mapping, in insertion order. -/
def keysOf (d : AList) : List Key := d.map Prod.fst

/-- Dict invariant: keys are unique. -/
def NoDupK (d : AList) : Prop := (keysOf d).Nodup

instance (d : AList) : Decidable (NoDupK d) := by
  unfold NoDupK
  infer_instance

theorem lookupA_eq_none_iff {d : AList} {k : Key} :
    lookupA d k = none ↔ k ∉ keysOf d := by
  induction d with
  | nil => simp [lookupA, keysOf]
  | cons p rest ih =>
    rcases p with ⟨k2, s⟩
    by_cases hk : k2 = k
    · subst hk; simp [lookupA, keysOf]
    · simp only [lookupA, if_neg hk, keysOf, List.map_cons, List.mem_cons]
      rw [ih]
      constructor
      · intro h hc
        rcases hc with hc | hc
        · exact hk hc.symm
        · exact h hc
      · intro h hc
        exact h (Or.inr hc)

theorem lookupA_cons_self {k : Key} {s : Stats} {rest : AList} :
    lookupA ((k, s) :: rest) k = some s := by
  simp [lookupA]

theorem lookupA_cons_ne {k x : Key} {s : Stats} {rest : AList} (h : x ≠ k) :
    lookupA ((k, s) :: rest) x = lookupA rest x := by
  simp only [lookupA]
  rw [if_neg (fun hc => h hc.symm)]

theorem lookupA_append (d1 d2 : AList) (k : Key) :
    lookupA (d1 ++ d2) k =
      match lookupA d1 k with
      | some s => some s
      | none => lookupA d2 k := by
  induction d1 with
  | nil => simp [lookupA]
  | cons p rest ih =>
    rcases p with ⟨k2, s⟩
    by_cases hk : k2 = k
    · subst hk; simp [lookupA]
    · simp only [List.cons_append, lookupA, if_neg hk]
      exact ih

theorem setA_of_absent {d : AList} {k : Key} (s : Stats)
    (h : lookupA d k = none) : setA d k s = d := by
  induction d with
  | nil => rfl
  | cons p rest ih =>
    rcases p with ⟨k2, s2⟩
    by_cases hk : k2 = k
    · subst hk; simp [lookupA] at h
    · simp only [lookupA, if_neg hk] at h
      simp only [setA, if_neg hk]
      rw [ih h]

theorem lookupA_setA_self {d : AList} {k : Key} {s0 : Stats} (s : Stats)
    (h : lookupA d k = some s0) : lookupA (setA d k s) k = some s := by
  induction d with
  | nil => simp [lookupA] at h
  | cons p rest ih =>
    rcases p with ⟨k2, s2⟩
    by_cases hk : k2 = k
    · subst hk; simp [setA, lookupA]
    · simp only [lookupA, if_neg hk] at h
      simp only [setA, if_neg hk, lookupA, if_neg hk]
      exact ih h

theorem lookupA_setA_ne {d : AList} {k x : Key} (s : Stats) (h : x ≠ k) :
    lookupA (setA d k s) x = lookupA d x := by
  induction d with
  | nil => rfl
  | cons p rest ih =>
    rcases p with ⟨k2, s2⟩
    show lookupA (if k2 = k then (k2, s) :: rest else (k2, s2) :: setA rest k s) x = _
    by_cases hk : k2 = k
    · rw [if_pos hk]
      have hx2 : x ≠ k2 := fun hc => h (hc.trans hk)
      rw [lookupA_cons_ne hx2, lookupA_cons_ne hx2]
    · rw [if_neg hk]
      by_cases hx : k2 = x
      · subst hx
        rw [lookupA_cons_self, lookupA_cons_self]
      · rw [lookupA_cons_ne (fun hc => hx hc.symm),
          lookupA_cons_ne (fun hc => hx hc.symm)]
        exact ih

theorem keysOf_setA (d : AList) (k : Key) (s : Stats) :
    keysOf (setA d k s) = keysOf d := by
  induction d with
  | nil => rfl
  | cons p rest ih =>
    rcases p with ⟨k2, s2⟩
    by_cases hk : k2 = k
    · subst hk; simp [setA, keysOf]
    · simp only [setA, if_neg hk, keysOf, List.map_cons]
      exact congrArg (fun l => k2 :: l) ih

/-- Lookup after one completed record. -/
theorem lookupA_updateA (d : AList) (k : Key) (v : ℤ) (x : Key) :
    lookupA (updateA d k v) x =
      if x = k then optMerge (lookupA d k) (some (single v))
      else lookupA d x := by
  unfold updateA
  cases hl : lookupA d k with
  | none =>
    by_cases hx : x = k
    · subst hx
      rw [if_pos rfl, lookupA_append, hl, optMerge_none_left, lookupA_cons_self]
    · rw [if_neg hx, lookupA_append]
      cases hdx : lookupA d x with
      | some s => rfl
      | none => rw [lookupA_cons_ne hx]; rfl
  | some s0 =>
    by_cases hx : x = k
    · subst hx
      rw [if_pos rfl]
      rw [lookupA_setA_self _ hl]
      rw [show optMerge (some s0) (some (single v)) = some (mergeStats s0 (single v)) from rfl]
      rw [observe_eq_merge]
    · rw [if_neg hx, lookupA_setA_ne _ hx]

theorem keysOf_updateA (d : AList) (k : Key) (v : ℤ) :
    keysOf (updateA d k v) =
      if lookupA d k = none then keysOf d ++ [k] else keysOf d := by
  unfold updateA
  cases hl : lookupA d k with
  | none => simp [keysOf]
  | some s0 => simp [keysOf_setA]

theorem NoDupK_updateA {d : AList} (k : Key) (v : ℤ) (h : NoDupK d) :
    NoDupK (updateA d k v) := by
  unfold NoDupK
  rw [keysOf_updateA]
  cases hl : lookupA d k with
  | none =>
    rw [if_pos rfl]
    rw [List.nodup_append]
    refine ⟨h, List.nodup_singleton k, ?_⟩
    intro a ha hb
    simp at hb
    subst hb
    exact (lookupA_eq_none_iff.mp hl) ha
  | some s0 => simp; exact h

/-! ## The merger (`process_file` lines 177–189, v1 `reduce_results`) -/

/-- Fold one incoming key/entry pair into the accumulated result (the body of
the merge loop: insert if absent, else merge in place). -/
def mergeInto (res : AList) (p : Key × Stats) : AList :=
  match lookupA res p.1 with
  | none => res ++ [p]
  | some s0 => setA res p.1 (mergeStats s0 p.2)

/-- Merge a whole chunk result into the accumulated result
(`for location, measurements in chunk_result.items(): ...`). -/
def mergeMaps (res d : AList) : AList := d.foldl mergeInto res

/-- Fold all partial results into the final mapping, starting from the empty
dict (`result = dict()`; v1: `reduce(reduce_results, chunk_results, {})`). -/
def reduceAll (ps : List AList) : AList := ps.foldl mergeMaps []

theorem lookupA_mergeInto (res : AList) (p : Key × Stats) (x : Key) :
    lookupA (mergeInto res p) x =
      if x = p.1 then optMerge (lookupA res p.1) (some p.2)
      else lookupA res x := by
  unfold mergeInto
  cases hl : lookupA res p.1 with
  | none =>
    by_cases hx : x = p.1
    · subst hx
      rw [if_pos rfl, lookupA_append, hl, optMerge_none_left]
      rcases p with ⟨k, s⟩
      exact lookupA_cons_self
    · rw [if_neg hx, lookupA_append]
      cases hdx : lookupA res x with
      | some s => rfl
      | none =>
        rcases p with ⟨k, s⟩
        rw [lookupA_cons_ne hx]
        rfl
  | some s0 =>
    by_cases hx : x = p.1
    · subst hx
      rw [if_pos rfl, lookupA_setA_self _ hl]
      rfl
    · rw [if_neg hx, lookupA_setA_ne _ hx]

theorem keysOf_mergeInto (res : AList) (p : Key × Stats) :
    keysOf (mergeInto res p) =
      if lookupA res p.1 = none then keysOf res ++ [p.1] else keysOf res := by
  unfold mergeInto
  cases hl : lookupA res p.1 with
  | none => simp [keysOf]
  | some s0 => simp [keysOf_setA]

theorem NoDupK_mergeInto {res : AList} (p : Key × Stats) (h : NoDupK res) :
    NoDupK (mergeInto res p) := by
  unfold NoDupK
  rw [keysOf_mergeInto]
  cases hl : lookupA res p.1 with
  | none =>
    rw [if_pos rfl, List.nodup_append]
    refine ⟨h, List.nodup_singleton _, ?_⟩
    intro a ha hb
    simp at hb
    subst hb
    exact (lookupA_eq_none_iff.mp hl) ha
  | some s0 => simp; exact h

theorem NoDupK_mergeMaps {res : AList} (d : AList) (h : NoDupK res) :
    NoDupK (mergeMaps res d) := by
  induction d generalizing res with
  | nil => exact h
  | cons p rest ih =>
    show NoDupK (mergeMaps (mergeInto res p) rest)
    exact ih (NoDupK_mergeInto p h)

/-- Pointwise description of merging one chunk result whose keys are unique. -/
theorem lookupA_mergeMaps (d : AList) (hd : NoDupK d) (res : AList) (x : Key) :
    lookupA (mergeMaps res d) x = optMerge (lookupA res x) (lookupA d x) := by
  induction d generalizing res with
  | nil =>
    show lookupA res x = optMerge (lookupA res x) none
    rw [optMerge_none_right]
  | cons p rest ih =>
    rcases p with ⟨k, s⟩
    have hd0 : k ∉ keysOf rest ∧ (keysOf rest).Nodup := by
      have hcons : (k :: keysOf rest).Nodup := hd
      rw [List.nodup_cons] at hcons
      exact hcons
    have hd2 : NoDupK rest := hd0.2
    show lookupA (mergeMaps (mergeInto res (k, s)) rest) x = _
    rw [ih hd2]
    rw [lookupA_mergeInto]
    by_cases hx : x = k
    · subst hx
      have hrest : lookupA rest x = none := lookupA_eq_none_iff.mpr hd0.1
      rw [if_pos rfl, hrest, optMerge_none_right, lookupA_cons_self]
    · rw [if_neg hx, lookupA_cons_ne hx]

theorem NoDupK_reduceAll_aux (ps : List AList) :
    ∀ res : AList, NoDupK res → NoDupK (ps.foldl mergeMaps res) := by
  induction ps with
  | nil => intro res h; exact h
  | cons d rest ih =>
    intro res h
    exact ih (mergeMaps res d) (NoDupK_mergeMaps d h)

theorem NoDupK_reduceAll (ps : List AList) : NoDupK (reduceAll ps) :=
  NoDupK_reduceAll_aux ps [] (by simp [NoDupK, keysOf])

/-- Pointwise description of the full fold of partial results. -/
theorem lookupA_foldl_mergeMaps (ps : List AList)
    (hps : ∀ p ∈ ps, NoDupK p) (x : Key) :
    ∀ res : AList,
      lookupA (ps.foldl mergeMaps res) x =
        (ps.map (fun d => lookupA d x)).foldl optMerge (lookupA res x) := by
  induction ps with
  | nil => intro res; rfl
  | cons d rest ih =>
    intro res
    have hd : NoDupK d := hps d (by simp)
    have hrest : ∀ p ∈ rest, NoDupK p := fun p hp => hps p (by simp [hp])
    show lookupA (rest.foldl mergeMaps (mergeMaps res d)) x = _
    rw [ih hrest (mergeMaps res d), lookupA_mergeMaps d hd res x]
    rfl

theorem foldl_optMerge_perm {l1 l2 : List (Option Stats)} (h : l1.Perm l2) :
    ∀ i : Option Stats, l1.foldl optMerge i = l2.foldl optMerge i := by
  induction h with
  | nil => intro i; rfl
  | cons a h ih =>
    intro i
    exact ih (optMerge i a)
  | swap a b =>
    intro i
    show List.foldl optMerge (optMerge (optMerge i b) a) _ =
      List.foldl optMerge (optMerge (optMerge i a) b) _
    rw [optMerge_assoc, optMerge_assoc, optMerge_comm b a]
  | trans h1 h2 ih1 ih2 =>
    intro i
    rw [ih1 i, ih2 i]

/-- Merge-order independence at each key: permuting the list of partial
results does not change any looked-up entry of the folded final mapping. -/
theorem lookupA_reduceAll_perm {ps qs : List AList} (h : ps.Perm qs)
    (hps : ∀ p ∈ ps, NoDupK p) (x : Key) :
    lookupA (reduceAll ps) x = lookupA (reduceAll qs) x := by
  have hqs : ∀ p ∈ qs, NoDupK p := fun p hp => hps p (h.mem_iff.mpr hp)
  unfold reduceAll
  rw [lookupA_foldl_mergeMaps ps hps x [], lookupA_foldl_mergeMaps qs hqs x []]
  exact foldl_optMerge_perm (h.map (fun d => lookupA d x)) (lookupA ([] : AList) x)

/-! ## Entry invariants: every stored entry has `count ≥ 1` -/

/-- Every entry of the mapping has been observed at least once. -/
def CountPos (d : AList) : Prop := ∀ p ∈ d, 1 ≤ p.2.count

theorem mem_setA {d : AList} {k : Key} {s : Stats} :
    ∀ q ∈ setA d k s, q ∈ d ∨ q = (k, s) := by
  induction d with
  | nil => intro q hq; simp [setA] at hq
  | cons p rest ih =>
    rcases p with ⟨k2, s2⟩
    intro q hq
    have hq2 : q ∈ (if k2 = k then (k2, s) :: rest
        else (k2, s2) :: setA rest k s) := hq
    clear hq
    by_cases hk : k2 = k
    · rw [if_pos hk] at hq2
      rcases List.mem_cons.mp hq2 with hq | hq
      · right; rw [hq, hk]
      · left; exact List.mem_cons_of_mem _ hq
    · rw [if_neg hk] at hq2
      rcases List.mem_cons.mp hq2 with hq | hq
      · left; rw [hq]; exact List.mem_cons_self _ _
      · rcases ih q hq with h2 | h2
        · left; exact List.mem_cons_of_mem _ h2
        · right; exact h2

theorem countPos_updateA {d : AList} (k : Key) (v : ℤ) (h : CountPos d) :
    CountPos (updateA d k v) := by
  unfold updateA
  cases hl : lookupA d k with
  | none =>
    intro q hq
    rcases List.mem_append.mp hq with hq | hq
    · exact h q hq
    · simp at hq
      rw [hq]
      exact le_refl 1
  | some s0 =>
    intro q hq
    rcases mem_setA q hq with hq | hq
    · exact h q hq
    · rw [hq]
      show 1 ≤ (observe s0 v).count
      show 1 ≤ s0.count + 1
      omega

theorem countPos_scanLoop (parse : List ℕ → ℤ) :
    ∀ (n : ℕ) (data : List ℕ), data.length ≤ n →
      ∀ (res : AList) (loc : Option Key), CountPos res →
        CountPos (scanLoop parse res loc data).1 := by
  intro n
  induction n with
  | zero =>
    intro data hdata res loc h
    have hnil : data = [] := List.length_eq_zero.mp (by omega)
    subst hnil
    cases loc with
    | none => exact h
    | some k => exact h
  | succ n ih =>
    intro data hdata res loc h
    cases loc with
    | none =>
      rw [scanLoop_none_eq]
      cases hsp : splitAtByte semiByte data with
      | none => exact h
      | some kr =>
        rcases kr with ⟨k, rest⟩
        have hlen := splitAtByte_some_length hsp
        exact ih rest (by omega) res (some k) h
    | some k =>
      rw [scanLoop_some_eq]
      cases hsp : splitAtByte nlByte data with
      | none => exact h
      | some vr =>
        rcases vr with ⟨v, rest⟩
        have hlen := splitAtByte_some_length hsp
        exact ih rest (by omega) (updateA res k (parse v)) none
          (countPos_updateA k (parse v) h)

theorem countPos_processStream (parse : List ℕ → ℤ) (c : List ℕ) :
    CountPos (processStream parse c) :=
  countPos_scanLoop parse c.length c le_rfl [] none (by intro q hq; simp at hq)

theorem countPos_mergeInto {res : AList} {p : Key × Stats}
    (h : CountPos res) (hp : 1 ≤ p.2.count) : CountPos (mergeInto res p) := by
  unfold mergeInto
  cases hl : lookupA res p.1 with
  | none =>
    intro q hq
    rcases List.mem_append.mp hq with hq | hq
    · exact h q hq
    · simp at hq
      rw [hq]
      exact hp
  | some s0 =>
    intro q hq
    rcases mem_setA q hq with hq | hq
    · exact h q hq
    · rw [hq]
      show 1 ≤ s0.count + p.2.count
      omega

theorem countPos_mergeMaps :
    ∀ (d res : AList), CountPos res → CountPos d → CountPos (mergeMaps res d) := by
  intro d
  induction d with
  | nil => intro res h _; exact h
  | cons p rest ih =>
    intro res h hd
    have hp : 1 ≤ p.2.count := hd p (by simp)
    have hrest : CountPos rest := fun q hq => hd q (by simp [hq])
    exact ih (mergeInto res p) (countPos_mergeInto h hp) hrest

theorem countPos_reduceAll_aux (ps : List AList) (hps : ∀ p ∈ ps, CountPos p) :
    ∀ res, CountPos res → CountPos (ps.foldl mergeMaps res) := by
  induction ps with
  | nil => intro res h; exact h
  | cons d rest ih =>
    intro res h
    have hd : CountPos d := hps d (by simp)
    have hrest : ∀ p ∈ rest, CountPos p := fun p hp => hps p (by simp [hp])
    exact ih hrest (mergeMaps res d) (countPos_mergeMaps d res h hd)

theorem countPos_reduceAll (ps : List AList) (hps : ∀ p ∈ ps, CountPos p) :
    CountPos (reduceAll ps) :=
  countPos_reduceAll_aux ps hps [] (by intro q hq; simp at hq)

/-! ## Key-uniqueness of scanner results -/

theorem NoDupK_scanLoop (parse : List ℕ → ℤ) :
    ∀ (n : ℕ) (data : List ℕ), data.length ≤ n →
      ∀ (res : AList) (loc : Option Key), NoDupK res →
        NoDupK (scanLoop parse res loc data).1 := by
  intro n
  induction n with
  | zero =>
    intro data hdata res loc h
    have hnil : data = [] := List.length_eq_zero.mp (by omega)
    subst hnil
    cases loc with
    | none => exact h
    | some k => exact h
  | succ n ih =>
    intro data hdata res loc h
    cases loc with
    | none =>
      rw [scanLoop_none_eq]
      cases hsp : splitAtByte semiByte data with
      | none => exact h
      | some kr =>
        rcases kr with ⟨k, rest⟩
        have hlen := splitAtByte_some_length hsp
        exact ih rest (by omega) res (some k) h
    | some k =>
      rw [scanLoop_some_eq]
      cases hsp : splitAtByte nlByte data with
      | none => exact h
      | some vr =>
        rcases vr with ⟨v, rest⟩
        have hlen := splitAtByte_some_length hsp
        exact ih rest (by omega) (updateA res k (parse v)) none
          (NoDupK_updateA k (parse v) h)

theorem NoDupK_processStream (parse : List ℕ → ℤ) (c : List ℕ) :
    NoDupK (processStream parse c) :=
  NoDupK_scanLoop parse c.length c le_rfl [] none (by simp [NoDupK, keysOf])

/-! ## Records: the newline-terminated lines of a chunk -/

/-- The complete (terminator-ended) lines of a byte sequence, without their
terminators.  A trailing segment with no terminator is not a complete line. -/
def termLinesF : ℕ → List ℕ → List (List ℕ)
  | 0, _ => []
  | fuel + 1, bs =>
    match splitAtByte nlByte bs with
    | none => []
    | some (l, rest) => l :: termLinesF fuel rest

/-- `termLinesF` with always-sufficient fuel. -/
def termLines (bs : List ℕ) : List (List ℕ) := termLinesF (bs.length + 1) bs

theorem termLinesF_congr :
    ∀ (f g : ℕ) (bs : List ℕ), bs.length < f → bs.length < g →
      termLinesF f bs = termLinesF g bs := by
  intro f
  induction f with
  | zero => intro g bs hf; omega
  | succ f ih =>
    intro g bs hf hg
    cases g with
    | zero => omega
    | succ g =>
      show (match splitAtByte nlByte bs with
            | none => []
            | some (l, rest) => l :: termLinesF f rest) =
           (match splitAtByte nlByte bs with
            | none => []
            | some (l, rest) => l :: termLinesF g rest)
      cases hsp : splitAtByte nlByte bs with
      | none => rfl
      | some lr =>
        rcases lr with ⟨l, rest⟩
        have hlen := splitAtByte_some_length hsp
        show l :: termLinesF f rest = l :: termLinesF g rest
        rw [ih g rest (by omega) (by omega)]

theorem termLines_eq (bs : List ℕ) :
    termLines bs =
      match splitAtByte nlByte bs with
      | none => []
      | some (l, rest) => l :: termLines rest := by
  show termLinesF (bs.length + 1) bs = _
  rw [termLinesF]
  cases hsp : splitAtByte nlByte bs with
  | none => rfl
  | some lr =>
    rcases lr with ⟨l, rest⟩
    have hlen := splitAtByte_some_length hsp
    show l :: termLinesF bs.length rest = l :: termLines rest
    rw [termLinesF_congr bs.length (rest.length + 1) rest (by omega) (by omega)]
    rfl

/-- Process one complete record line: split at the first delimiter, convert
the value bytes, update the mapping. -/
def procRecord (parse : List ℕ → ℤ) (res : AList) (line : List ℕ) : AList :=
  match splitAtByte semiByte line with
  | some (k, v) => updateA res k (parse v)
  | none => res

/-- Record-at-a-time reference semantics of a chunk scan. -/
def foldRecords (parse : List ℕ → ℤ) (lines : List (List ℕ)) : AList :=
  lines.foldl (procRecord parse) []

/-- A byte sequence is well formed for scanning when every complete line
contains a field delimiter. -/
def WFstream (bs : List ℕ) : Prop := ∀ l ∈ termLines bs, semiByte ∈ l

instance (bs : List ℕ) : Decidable (WFstream bs) := by
  unfold WFstream
  infer_instance

/-- Scanning bytes with no terminator leaves the mapping unchanged. -/
theorem scanLoop_fst_no_nl (parse : List ℕ → ℤ) {t : List ℕ}
    (h : nlByte ∉ t) (res : AList) (loc : Option Key) :
    (scanLoop parse res loc t).1 = res := by
  cases loc with
  | some k =>
    rw [scanLoop_some_eq, splitAtByte_none_iff.mpr h]
  | none =>
    rw [scanLoop_none_eq]
    cases hsp : splitAtByte semiByte t with
    | none => rfl
    | some kr =>
      rcases kr with ⟨k, rest⟩
      obtain ⟨hspec, _⟩ := splitAtByte_some_spec hsp
      have hrest : nlByte ∉ rest := by
        intro hmem
        exact h (by rw [hspec]; exact List.mem_append_right _ (List.mem_cons_of_mem _ hmem))
      show (scanLoop parse res (some k) rest).1 = res
      rw [scanLoop_some_eq, splitAtByte_none_iff.mpr hrest]

/-- Scanning one complete record followed by the rest: the scanner consumes
exactly the record. -/
theorem scanLoop_record (parse : List ℕ → ℤ) {l : List ℕ}
    (hnl : nlByte ∉ l) (hsemi : semiByte ∈ l) (res : AList) (rest : List ℕ) :
    scanLoop parse res none (l ++ nlByte :: rest) =
      scanLoop parse (procRecord parse res l) none rest := by
  cases hsp : splitAtByte semiByte l with
  | none => exact absurd (splitAtByte_none_iff.mp hsp) (by simp [hsemi])
  | some kv =>
    rcases kv with ⟨k, v⟩
    obtain ⟨hspec, _⟩ := splitAtByte_some_spec hsp
    have hv : nlByte ∉ v := by
      intro hmem
      exact hnl (by rw [hspec]; exact List.mem_append_right _ (List.mem_cons_of_mem _ hmem))
    rw [scanLoop_none_eq, splitAtByte_append_some (nlByte :: rest) hsp]
    show scanLoop parse res (some k) (v ++ nlByte :: rest) = _
    rw [scanLoop_some_eq, splitAtByte_append_none (nlByte :: rest)
      (splitAtByte_none_iff.mpr hv)]
    show scanLoop parse (updateA res k (parse ((fun p => (v ++ p.1, p.2)) ([], rest)).1)) none
      ((fun p => (v ++ p.1, p.2)) ([], rest)).2 = _
    show scanLoop parse (updateA res k (parse (v ++ []))) none rest = _
    rw [List.append_nil]
    unfold procRecord
    rw [hsp]

/-- The scanner over a whole chunk is the record-at-a-time fold over its
complete lines (the unterminated trailing segment is dropped). -/
theorem scanLoop_eq_foldRecords (parse : List ℕ → ℤ) :
    ∀ (n : ℕ) (c : List ℕ), c.length ≤ n →
      (∀ l ∈ termLines c, semiByte ∈ l) →
      ∀ res : AList,
        (scanLoop parse res none c).1 = (termLines c).foldl (procRecord parse) res := by
  intro n
  induction n with
  | zero =>
    intro c hlen hwf res
    have hnil : c = [] := List.length_eq_zero.mp (by omega)
    subst hnil
    rfl
  | succ n ih =>
    intro c hlen hwf res
    cases hsp : splitAtByte nlByte c with
    | none =>
      rw [termLines_eq, hsp]
      exact scanLoop_fst_no_nl parse (splitAtByte_none_iff.mp hsp) res none
    | some lr =>
      rcases lr with ⟨l, rest⟩
      obtain ⟨hspec, hlnl⟩ := splitAtByte_some_spec hsp
      have hlmem : l ∈ termLines c := by
        rw [termLines_eq, hsp]
        exact List.mem_cons_self _ _
      have hsemi : semiByte ∈ l := hwf l hlmem
      have hlen2 := splitAtByte_some_length hsp
      have hwfrest : ∀ l2 ∈ termLines rest, semiByte ∈ l2 := by
        intro l2 hl2
        apply hwf
        rw [termLines_eq, hsp]
        exact List.mem_cons_of_mem _ hl2
      rw [termLines_eq, hsp]
      rw [hspec, scanLoop_record parse hlnl hsemi res rest]
      exact ih rest (by omega) hwfrest (procRecord parse res l)

theorem processStream_eq_foldRecords (parse : List ℕ → ℤ) (c : List ℕ)
    (hwf : WFstream c) :
    processStream parse c = foldRecords parse (termLines c) :=
  scanLoop_eq_foldRecords parse c.length c le_rfl hwf []

/-- Splitting the byte stream immediately after a line terminator splits its
complete lines. -/
theorem termLines_append_endNl :
    ∀ (n : ℕ) (c1 : List ℕ), c1.length ≤ n → (∃ l0, c1 = l0 ++ [nlByte]) →
      ∀ c2, termLines (c1 ++ c2) = termLines c1 ++ termLines c2 := by
  intro n
  induction n with
  | zero =>
    intro c1 hlen hend c2
    obtain ⟨l0, hl0⟩ := hend
    rw [hl0] at hlen
    simp at hlen
  | succ n ih =>
    intro c1 hlen hend c2
    obtain ⟨l0, hl0⟩ := hend
    have hmem : nlByte ∈ c1 := by rw [hl0]; exact List.mem_append_right _ (by simp)
    cases hsp : splitAtByte nlByte c1 with
    | none => exact absurd (splitAtByte_none_iff.mp hsp) (by simp [hmem])
    | some lr =>
      rcases lr with ⟨l, rest⟩
      obtain ⟨hspec, hlnl⟩ := splitAtByte_some_spec hsp
      have hlen2 := splitAtByte_some_length hsp
      rw [termLines_eq (c1 ++ c2), splitAtByte_append_some c2 hsp]
      rw [termLines_eq c1, hsp]
      by_cases hrest : rest = []
      · subst hrest
        rfl
      · have hrend : ∃ r0, rest = r0 ++ [nlByte] := by
          have h1 : c1.getLast? = some nlByte := by
            rw [hl0, List.getLast?_append]
            rfl
          have h2 : c1.getLast? = rest.getLast? := by
            cases hrl : rest.getLast? with
            | none => exact absurd (List.getLast?_eq_none_iff.mp hrl) hrest
            | some x =>
              rw [hspec]
              rw [show l ++ nlByte :: rest = l ++ ([nlByte] ++ rest) from rfl]
              rw [List.getLast?_append, List.getLast?_append, hrl]
              rfl
          refine ⟨rest.dropLast, ?_⟩
          have h3 : rest.getLast? = some nlByte := h2 ▸ h1
          exact (List.dropLast_append_getLast? nlByte h3).symm
        show l :: termLines (rest ++ c2) = (l :: termLines rest) ++ termLines c2
        rw [ih rest (by omega) hrend c2]
        rfl

/-! ## Observation semantics at a fixed key -/

/-- The observation a complete line contributes to key `x` (if any). -/
def lineObs (parse : List ℕ → ℤ) (x : Key) (l : List ℕ) : Option ℤ :=
  match splitAtByte semiByte l with
  | some (k, v) => if k = x then some (parse v) else none
  | none => none

/-- All observations for key `x` in a list of complete lines, in order. -/
def obsOf (parse : List ℕ → ℤ) (x : Key) (lines : List (List ℕ)) : List ℤ :=
  lines.filterMap (lineObs parse x)

/-- Fold one observation into an optional accumulated entry. -/
def oneObs (acc : Option Stats) (v : ℤ) : Option Stats :=
  optMerge acc (some (single v))

theorem lookupA_procRecord (parse : List ℕ → ℤ) (res : AList) (l : List ℕ)
    (x : Key) :
    lookupA (procRecord parse res l) x =
      match lineObs parse x l with
      | some v => oneObs (lookupA res x) v
      | none => lookupA res x := by
  unfold procRecord lineObs
  cases hsp : splitAtByte semiByte l with
  | none => rfl
  | some kv =>
    rcases kv with ⟨k, v⟩
    rw [lookupA_updateA]
    show (if x = k then optMerge (lookupA res k) (some (single (parse v)))
          else lookupA res x) =
      match (if k = x then some (parse v) else none : Option ℤ) with
      | some v2 => oneObs (lookupA res x) v2
      | none => lookupA res x
    by_cases hk : k = x
    · rw [if_pos hk, if_pos hk.symm, hk]
      rfl
    · rw [if_neg hk, if_neg (fun hc => hk hc.symm)]

theorem lookupA_foldl_procRecord (parse : List ℕ → ℤ) (x : Key) :
    ∀ (lines : List (List ℕ)) (res : AList),
      lookupA (lines.foldl (procRecord parse) res) x =
        (obsOf parse x lines).foldl oneObs (lookupA res x) := by
  intro lines
  induction lines with
  | nil => intro res; rfl
  | cons l rest ih =>
    intro res
    show lookupA (rest.foldl (procRecord parse) (procRecord parse res l)) x = _
    rw [ih (procRecord parse res l), lookupA_procRecord]
    unfold obsOf
    cases ho : lineObs parse x l with
    | none => rw [List.filterMap_cons_none ho]
    | some v =>
      rw [List.filterMap_cons_some ho]
      rfl

theorem lookupA_foldRecords (parse : List ℕ → ℤ) (lines : List (List ℕ))
    (x : Key) :
    lookupA (foldRecords parse lines) x =
      (obsOf parse x lines).foldl oneObs none := by
  unfold foldRecords
  rw [lookupA_foldl_procRecord]
  rfl

theorem foldl_oneObs_shift (vs : List ℤ) :
    ∀ (i j : Option Stats),
      vs.foldl oneObs (optMerge i j) = optMerge i (vs.foldl oneObs j) := by
  induction vs with
  | nil => intro i j; rfl
  | cons v rest ih =>
    intro i j
    show rest.foldl oneObs (oneObs (optMerge i j) v) = _
    rw [show oneObs (optMerge i j) v = optMerge i (oneObs j v) from optMerge_assoc i j (some (single v))]
    exact ih i (oneObs j v)

/-- Merging two per-key aggregates equals aggregating the concatenated
observation sequence. -/
theorem optMerge_foldl_oneObs (vs1 vs2 : List ℤ) :
    optMerge (vs1.foldl oneObs none) (vs2.foldl oneObs none) =
      (vs1 ++ vs2).foldl oneObs none := by
  rw [List.foldl_append]
  rw [show vs1.foldl oneObs none = optMerge (vs1.foldl oneObs none) none from
    (optMerge_none_right _).symm]
  rw [foldl_oneObs_shift vs2 (vs1.foldl oneObs none) none]
  rw [optMerge_none_right]

/-! ## The chunk planner (`get_file_chunks`, v2 lines 47–95) -/

/-- `is_new_line(position)`: true at position 0, else the byte before the
position is a line terminator. -/
def isNewLine (bs : List ℕ) (pos : ℕ) : Bool :=
  pos == 0 || bs.getD (pos - 1) 0 == nlByte

/-- The backward snap `while not is_new_line(chunk_end): chunk_end -= 1`. -/
def findBack (bs : List ℕ) : ℕ → ℕ
  | 0 => 0
  | pos + 1 => if bs.getD pos 0 == nlByte then pos + 1 else findBack bs pos

/-- `next_line(position)`: seek, `readline()`, `tell()` — the index just past
the next terminator at or after `pos`, or the file size if none remains. -/
def nextLine (bs : List ℕ) (pos : ℕ) : ℕ :=
  match splitAtByte nlByte (bs.drop pos) with
  | some (l, _) => pos + l.length + 1
  | none => bs.length

/-- The planner loop (`while chunk_start < file_size`): tentative end
`min(F, start + chunk_size)`, snapped back to a record boundary; if that
collides with the chunk start, advance past the next line instead.
Structural recursion on fuel (the start strictly increases each iteration
when it begins at a record boundary, so `F + 1` fuel always suffices). -/
def chunksFromF (bs : List ℕ) (csize : ℕ) : ℕ → ℕ → List (ℕ × ℕ)
  | 0, _ => []
  | fuel + 1, start =>
    if start < bs.length then
      let e1 := findBack bs (min bs.length (start + csize))
      let e2 := if e1 = start then nextLine bs start else e1
      (start, e2) :: chunksFromF bs csize fuel e2
    else []

/-- `get_file_chunks(file_name, max_cpu)`: the worker count
`min(max_cpu, mp.cpu_count())` is modelled as the parameter `w`;
`chunk_size = file_size // w`. -/
def getFileChunks (bs : List ℕ) (w : ℕ) : List (ℕ × ℕ) :=
  chunksFromF bs (bs.length / w) (bs.length + 1) 0

theorem isNewLine_zero (bs : List ℕ) : isNewLine bs 0 = true := rfl

theorem findBack_isNewLine (bs : List ℕ) :
    ∀ p, isNewLine bs (findBack bs p) = true := by
  intro p
  induction p with
  | zero => rfl
  | succ p ih =>
    show isNewLine bs (if bs.getD p 0 == nlByte then p + 1 else findBack bs p) = true
    by_cases hb : bs.getD p 0 == nlByte
    · rw [if_pos hb]
      unfold isNewLine
      simp at hb ⊢
      omega
    · rw [if_neg hb]
      exact ih

theorem findBack_le (bs : List ℕ) : ∀ p, findBack bs p ≤ p := by
  intro p
  induction p with
  | zero => exact le_refl 0
  | succ p ih =>
    show (if bs.getD p 0 == nlByte then p + 1 else findBack bs p) ≤ p + 1
    by_cases hb : bs.getD p 0 == nlByte
    · rw [if_pos hb]
    · rw [if_neg hb]; omega

theorem findBack_ge (bs : List ℕ) :
    ∀ p q, q ≤ p → isNewLine bs q = true → q ≤ findBack bs p := by
  intro p
  induction p with
  | zero => intro q hq _; omega
  | succ p ih =>
    intro q hq hnl
    show q ≤ if bs.getD p 0 == nlByte then p + 1 else findBack bs p
    by_cases hb : bs.getD p 0 == nlByte
    · rw [if_pos hb]; omega
    · rw [if_neg hb]
      rcases Nat.lt_or_ge q (p + 1) with h | h
      · exact ih q (by omega) hnl
      · have hq1 : q = p + 1 := by omega
        subst hq1
        unfold isNewLine at hnl
        simp at hnl
        exact absurd (by simp [hnl]) hb

theorem nextLine_gt (bs : List ℕ) (pos : ℕ) (h : pos < bs.length) :
    pos < nextLine bs pos := by
  unfold nextLine
  cases hsp : splitAtByte nlByte (bs.drop pos) with
  | none => exact h
  | some lr =>
    rcases lr with ⟨l, rest⟩
    show pos < pos + l.length + 1
    omega

theorem nextLine_le (bs : List ℕ) (pos : ℕ) : nextLine bs pos ≤ bs.length := by
  unfold nextLine
  cases hsp : splitAtByte nlByte (bs.drop pos) with
  | none => exact le_refl _
  | some lr =>
    rcases lr with ⟨l, rest⟩
    obtain ⟨hspec, _⟩ := splitAtByte_some_spec hsp
    have hlen : (bs.drop pos).length = l.length + 1 + rest.length := by
      rw [hspec]; simp; omega
    rw [List.length_drop] at hlen
    show pos + l.length + 1 ≤ bs.length
    by_cases hp : pos ≤ bs.length
    · omega
    · have hdrop : bs.drop pos = [] := List.drop_eq_nil_of_le (by omega)
      rw [hdrop] at hsp
      simp [splitAtByte] at hsp

theorem nextLine_boundary (bs : List ℕ) (pos : ℕ) :
    isNewLine bs (nextLine bs pos) = true ∨ nextLine bs pos = bs.length := by
  unfold nextLine
  cases hsp : splitAtByte nlByte (bs.drop pos) with
  | none => right; rfl
  | some lr =>
    rcases lr with ⟨l, rest⟩
    obtain ⟨hspec, _⟩ := splitAtByte_some_spec hsp
    left
    show isNewLine bs (pos + l.length + 1) = true
    have h1 : (bs.drop pos).getD l.length 0 = nlByte := by
      rw [hspec]
      rw [List.getD_append_right l (nlByte :: rest) 0 l.length (le_refl _)]
      simp
    rw [List.getD_eq_getElem?_getD, List.getElem?_drop] at h1
    unfold isNewLine
    simp
    exact h1

/-- The ranges are consecutive and exactly cover `[s, bs.length)`:
each range starts where the previous ended, ranges are nonempty, and the
last range ends at the file size. -/
def ChainFrom (bs : List ℕ) : ℕ → List (ℕ × ℕ) → Prop
  | s, [] => s = bs.length
  | s, r :: rest => r.1 = s ∧ s < r.2 ∧ ChainFrom bs r.2 rest

theorem chainFrom_le (bs : List ℕ) :
    ∀ (rs : List (ℕ × ℕ)) (s : ℕ), ChainFrom bs s rs → s ≤ bs.length := by
  intro rs
  induction rs with
  | nil =>
    intro s h
    exact le_of_eq h
  | cons r rest ih =>
    intro s h
    obtain ⟨h1, h2, h3⟩ := h
    have := ih r.2 h3
    omega

theorem chunksFromF_spec (bs : List ℕ) (csize : ℕ) :
    ∀ (fuel start : ℕ), bs.length - start < fuel → start ≤ bs.length →
      (isNewLine bs start = true ∨ start = bs.length) →
      ChainFrom bs start (chunksFromF bs csize fuel start) ∧
      ∀ r ∈ chunksFromF bs csize fuel start,
        isNewLine bs r.1 = true ∧
        (isNewLine bs r.2 = true ∨ r.2 = bs.length) ∧ r.2 ≤ bs.length := by
  intro fuel
  induction fuel with
  | zero => intro start hf; omega
  | succ fuel ih =>
    intro start hf hle hbnd
    by_cases hlt : start < bs.length
    · have hstart : isNewLine bs start = true := by
        rcases hbnd with h | h
        · exact h
        · omega
      set e1 := findBack bs (min bs.length (start + csize)) with he1
      set e2 := (if e1 = start then nextLine bs start else e1) with he2
      have hshow : chunksFromF bs csize (fuel + 1) start =
          (start, e2) :: chunksFromF bs csize fuel e2 := by
        show (if start < bs.length then
              (start, e2) :: chunksFromF bs csize fuel e2 else []) = _
        rw [if_pos hlt]
      have he1b : isNewLine bs e1 = true := findBack_isNewLine bs _
      have he1le : e1 ≤ bs.length := by
        have := findBack_le bs (min bs.length (start + csize))
        omega
      have he1ge : start ≤ e1 :=
        findBack_ge bs _ start (by omega) hstart
      have hgt : start < e2 := by
        rw [he2]
        by_cases hc : e1 = start
        · rw [if_pos hc]
          exact nextLine_gt bs start hlt
        · rw [if_neg hc]
          omega
      have he2le : e2 ≤ bs.length := by
        rw [he2]
        by_cases hc : e1 = start
        · rw [if_pos hc]
          exact nextLine_le bs start
        · rw [if_neg hc]
          exact he1le
      have he2b : isNewLine bs e2 = true ∨ e2 = bs.length := by
        rw [he2]
        by_cases hc : e1 = start
        · rw [if_pos hc]
          exact nextLine_boundary bs start
        · rw [if_neg hc]
          left
          exact he1b
      obtain ⟨ihchain, ihfacts⟩ := ih e2 (by omega) he2le he2b
      constructor
      · rw [hshow]
        exact ⟨rfl, hgt, ihchain⟩
      · rw [hshow]
        intro r hr
        rcases List.mem_cons.mp hr with hr | hr
        · rw [hr]
          exact ⟨hstart, he2b, he2le⟩
        · exact ihfacts r hr
    · have hstart : start = bs.length := by omega
      have hshow : chunksFromF bs csize (fuel + 1) start = [] := by
        show (if start < bs.length then _ else []) = []
        rw [if_neg hlt]
      rw [hshow]
      exact ⟨hstart, by intro r hr; simp at hr⟩

/-- The planner's output ranges partition `[0, F)` exactly, every range
start is a record boundary, and every range end is a record boundary or the
file size. -/
theorem getFileChunks_spec (bs : List ℕ) (w : ℕ) :
    ChainFrom bs 0 (getFileChunks bs w) ∧
    ∀ r ∈ getFileChunks bs w,
      isNewLine bs r.1 = true ∧
      (isNewLine bs r.2 = true ∨ r.2 = bs.length) ∧ r.2 ≤ bs.length :=
  chunksFromF_spec bs (bs.length / w) (bs.length + 1) 0 (by omega) (by omega)
    (Or.inl (isNewLine_zero bs))

/-! ## Worker ranges as byte slices -/

/-- The bytes of range `[s, e)`: the worker seeks to `chunk_start` and reads
`chunk_end - chunk_start` bytes. -/
def sliceBs (bs : List ℕ) (s e : ℕ) : List ℕ := (bs.drop s).take (e - s)

theorem sliceBs_append_drop (bs : List ℕ) (s e : ℕ) (h : s ≤ e) :
    sliceBs bs s e ++ bs.drop e = bs.drop s := by
  unfold sliceBs
  have h2 : bs.drop e = (bs.drop s).drop (e - s) := by
    rw [List.drop_drop]
    congr 1
    omega
  rw [h2, List.take_append_drop]

theorem sliceBs_full (bs : List ℕ) (s : ℕ) :
    sliceBs bs s bs.length = bs.drop s := by
  unfold sliceBs
  have h : (bs.drop s).length ≤ bs.length - s := by
    rw [List.length_drop]
  exact List.take_of_length_le (by rw [List.length_drop])

theorem sliceBs_endNl (bs : List ℕ) (s e : ℕ) (hs : s < e) (hle : e ≤ bs.length)
    (hb : isNewLine bs e = true) :
    ∃ l0, sliceBs bs s e = l0 ++ [nlByte] := by
  have hgd : bs[e - 1]?.getD 0 = nlByte := by
    unfold isNewLine at hb
    simp at hb
    rcases hb with hb | hb
    · omega
    · exact hb
  have hlt : e - 1 < bs.length := by omega
  have hsome : bs[e - 1]? = some nlByte := by
    rw [List.getElem?_eq_getElem hlt] at hgd ⊢
    rw [show (some (bs[e - 1])).getD 0 = bs[e - 1] from rfl] at hgd
    rw [hgd]
  refine ⟨(bs.drop s).take (e - s - 1), ?_⟩
  unfold sliceBs
  have hes : e - s = (e - s - 1) + 1 := by omega
  rw [hes, List.take_succ]
  congr 1
  rw [List.getElem?_drop]
  rw [show s + (e - s - 1) = e - 1 by omega]
  rw [hsome]
  rfl

theorem foldl_optMerge_shift (ms : List (Option Stats)) :
    ∀ i j : Option Stats,
      ms.foldl optMerge (optMerge i j) = optMerge i (ms.foldl optMerge j) := by
  induction ms with
  | nil => intro i j; rfl
  | cons m rest ih =>
    intro i j
    show rest.foldl optMerge (optMerge (optMerge i j) m) = _
    rw [optMerge_assoc i j m]
    exact ih i (optMerge j m)

/-- Folding per-range scans of a consecutive record-aligned cover of
`[s, F)` is, at every key, the same as scanning `[s, F)` in one piece. -/
theorem lookup_chain (parse : List ℕ → ℤ) (bs : List ℕ) :
    ∀ (rs : List (ℕ × ℕ)) (s : ℕ),
      ChainFrom bs s rs →
      (∀ r ∈ rs, isNewLine bs r.2 = true ∨ r.2 = bs.length) →
      WFstream (bs.drop s) →
      ∀ x : Key,
        (rs.map (fun r => lookupA (processStream parse (sliceBs bs r.1 r.2)) x)).foldl
            optMerge none =
          lookupA (processStream parse (bs.drop s)) x := by
  intro rs
  induction rs with
  | nil =>
    intro s hchain hfacts hwf x
    have hs : s = bs.length := hchain
    subst hs
    rw [List.drop_length]
    rfl
  | cons r rest ih =>
    intro s hchain hfacts hwf x
    obtain ⟨hr1, hr2, hchainrest⟩ := hchain
    rcases r with ⟨a, e⟩
    simp only at hr1 hr2 hchainrest
    subst hr1
    cases rest with
    | nil =>
      have he : e = bs.length := hchainrest
      subst he
      show List.foldl optMerge
        (optMerge none (lookupA (processStream parse (sliceBs bs a bs.length)) x)) [] =
        _
      rw [sliceBs_full]
      rfl
    | cons r2 rest2 =>
      obtain ⟨hr21, hr22, hchain2⟩ := hchainrest
      have he_lt : e < bs.length := by
        have := chainFrom_le bs rest2 r2.2 hchain2
        omega
      have hbound : isNewLine bs e = true := by
        rcases hfacts (a, e) (List.mem_cons_self _ _) with h | h
        · exact h
        · omega
      obtain ⟨l0, hl0⟩ := sliceBs_endNl bs a e hr2 (by omega) hbound
      have hsplit : sliceBs bs a e ++ bs.drop e = bs.drop a :=
        sliceBs_append_drop bs a e (by omega)
      have hterm : termLines (bs.drop a) =
          termLines (sliceBs bs a e) ++ termLines (bs.drop e) := by
        rw [← hsplit]
        exact termLines_append_endNl (sliceBs bs a e).length _ le_rfl ⟨l0, hl0⟩ _
      have hwf1 : WFstream (sliceBs bs a e) := by
        intro l hl
        apply hwf
        rw [hterm]
        exact List.mem_append_left _ hl
      have hwf2 : WFstream (bs.drop e) := by
        intro l hl
        apply hwf
        rw [hterm]
        exact List.mem_append_right _ hl
      have hchainrest2 : ChainFrom bs e (r2 :: rest2) := ⟨hr21, hr22, hchain2⟩
      have hfactsrest : ∀ r ∈ r2 :: rest2,
          isNewLine bs r.2 = true ∨ r.2 = bs.length :=
        fun r hr => hfacts r (List.mem_cons_of_mem _ hr)
      have hih := ih e hchainrest2 hfactsrest hwf2 x
      show List.foldl optMerge
        (optMerge none (lookupA (processStream parse (sliceBs bs a e)) x)) _ = _
      rw [optMerge_none_left]
      rw [show lookupA (processStream parse (sliceBs bs a e)) x =
        optMerge (lookupA (processStream parse (sliceBs bs a e)) x) none from
        (optMerge_none_right _).symm]
      rw [foldl_optMerge_shift]
      rw [hih]
      rw [processStream_eq_foldRecords parse _ hwf1,
        processStream_eq_foldRecords parse _ hwf2,
        processStream_eq_foldRecords parse _ hwf]
      rw [lookupA_foldRecords, lookupA_foldRecords, lookupA_foldRecords]
      rw [hterm]
      unfold obsOf
      rw [List.filterMap_append]
      exact optMerge_foldl_oneObs _ _

/-! ## Sorting (`sorted(result.items())`): byte-wise lexicographic order -/

/-- Python `bytes` comparison: strict byte-wise lexicographic order. -/
def bytesLtB : List ℕ → List ℕ → Bool
  | [], [] => false
  | [], _ :: _ => true
  | _ :: _, [] => false
  | a :: as, b :: bs =>
    if a < b then true else if a = b then bytesLtB as bs else false

theorem bytesLtB_irrefl : ∀ a : List ℕ, bytesLtB a a = false := by
  intro a
  induction a with
  | nil => rfl
  | cons x xs ih =>
    show (if x < x then true else if x = x then bytesLtB xs xs else false) = false
    rw [if_neg (lt_irrefl x), if_pos rfl, ih]

theorem bytesLtB_asymm :
    ∀ a b : List ℕ, bytesLtB a b = true → bytesLtB b a = true → False := by
  intro a
  induction a with
  | nil =>
    intro b h1 h2
    cases b with
    | nil => simp [bytesLtB] at h1
    | cons y ys => simp [bytesLtB] at h2
  | cons x xs ih =>
    intro b h1 h2
    cases b with
    | nil => simp [bytesLtB] at h1
    | cons y ys =>
      by_cases hxy : x < y
      · rw [show bytesLtB (y :: ys) (x :: xs) =
          (if y < x then true else if y = x then bytesLtB ys xs else false) from rfl,
          if_neg (by omega), if_neg (by omega)] at h2
        exact Bool.false_ne_true h2
      · rw [show bytesLtB (x :: xs) (y :: ys) =
          (if x < y then true else if x = y then bytesLtB xs ys else false) from rfl,
          if_neg hxy] at h1
        by_cases heq : x = y
        · rw [if_pos heq] at h1
          rw [show bytesLtB (y :: ys) (x :: xs) =
            (if y < x then true else if y = x then bytesLtB ys xs else false) from rfl,
            if_neg (by omega), if_pos heq.symm] at h2
          exact ih ys h1 h2
        · rw [if_neg heq] at h1; exact Bool.false_ne_true h1

theorem bytesLtB_trans :
    ∀ a b c : List ℕ, bytesLtB a b = true → bytesLtB b c = true →
      bytesLtB a c = true := by
  intro a
  induction a with
  | nil =>
    intro b c h1 h2
    cases b with
    | nil => simp [bytesLtB] at h1
    | cons y ys =>
      cases c with
      | nil => simp [bytesLtB] at h2
      | cons z zs => rfl
  | cons x xs ih =>
    intro b c h1 h2
    cases b with
    | nil => simp [bytesLtB] at h1
    | cons y ys =>
      cases c with
      | nil => simp [bytesLtB] at h2
      | cons z zs =>
        rw [show bytesLtB (x :: xs) (y :: ys) =
          (if x < y then true else if x = y then bytesLtB xs ys else false) from rfl] at h1
        rw [show bytesLtB (y :: ys) (z :: zs) =
          (if y < z then true else if y = z then bytesLtB ys zs else false) from rfl] at h2
        show (if x < z then true else if x = z then bytesLtB xs zs else false) = true
        by_cases h1a : x < y
        · by_cases h2a : y < z
          · rw [if_pos (by omega)]
          · by_cases h2b : y = z
            · rw [if_pos (by omega)]
            · rw [if_neg h2a, if_neg h2b] at h2; exact absurd h2 (by simp)
        · by_cases h1b : x = y
          · rw [if_neg h1a, if_pos h1b] at h1
            by_cases h2a : y < z
            · rw [if_pos (by omega)]
            · by_cases h2b : y = z
              · rw [if_neg h2a, if_pos h2b] at h2
                rw [if_neg (show ¬ x < z by omega), if_pos (show x = z by omega)]
                exact ih ys zs h1 h2
              · rw [if_neg h2a, if_neg h2b] at h2; exact absurd h2 (by simp)
          · rw [if_neg h1a, if_neg h1b] at h1; exact absurd h1 (by simp)

theorem bytesLtB_total :
    ∀ a b : List ℕ, bytesLtB a b = true ∨ a = b ∨ bytesLtB b a = true := by
  intro a
  induction a with
  | nil =>
    intro b
    cases b with
    | nil => right; left; rfl
    | cons y ys => left; rfl
  | cons x xs ih =>
    intro b
    cases b with
    | nil => right; right; rfl
    | cons y ys =>
      by_cases hxy : x < y
      · left
        show (if x < y then true else _) = true
        rw [if_pos hxy]
      · by_cases heq : x = y
        · subst heq
          rcases ih ys with h | h | h
          · left
            show (if x < x then true else if x = x then bytesLtB xs ys else false) = true
            rw [if_neg (lt_irrefl x), if_pos rfl, h]
          · right; left; rw [h]
          · right; right
            show (if x < x then true else if x = x then bytesLtB ys xs else false) = true
            rw [if_neg (lt_irrefl x), if_pos rfl, h]
        · right; right
          show (if y < x then true else if y = x then bytesLtB ys xs else false) = true
          rw [if_pos (by omega)]

/-- Python list comparison on `[min, max, sum, count]` entries (used by
tuple comparison inside `sorted(result.items())`; with unique keys it never
actually decides the order, but it makes the item order total and
antisymmetric). -/
def statsLtB (x y : Stats) : Bool :=
  if x.min < y.min then true
  else if x.min = y.min then
    if x.max < y.max then true
    else if x.max = y.max then
      if x.sum < y.sum then true
      else if x.sum = y.sum then decide (x.count < y.count)
      else false
    else false
  else false

theorem statsLtB_iff (x y : Stats) :
    statsLtB x y = true ↔
      (x.min < y.min ∨ (x.min = y.min ∧ (x.max < y.max ∨ (x.max = y.max ∧
        (x.sum < y.sum ∨ (x.sum = y.sum ∧ x.count < y.count)))))) := by
  unfold statsLtB
  split_ifs <;> simp <;> omega

theorem statsLtB_asymm (x y : Stats) (h1 : statsLtB x y = true)
    (h2 : statsLtB y x = true) : False := by
  rw [statsLtB_iff] at h1 h2
  omega

theorem statsLtB_trans (x y z : Stats) (h1 : statsLtB x y = true)
    (h2 : statsLtB y z = true) : statsLtB x z = true := by
  rw [statsLtB_iff] at h1 h2 ⊢
  omega

theorem statsLtB_total (x y : Stats) :
    statsLtB x y = true ∨ x = y ∨ statsLtB y x = true := by
  rw [statsLtB_iff, statsLtB_iff]
  rcases x with ⟨a1, a2, a3, a4⟩
  rcases y with ⟨b1, b2, b3, b4⟩
  simp only [Stats.mk.injEq]
  omega

/-- The order `sorted` uses on `result.items()`: lexicographic on the
`(key, entry)` tuple, keys compared byte-wise. -/
def itemLe (p q : Key × Stats) : Prop :=
  bytesLtB p.1 q.1 = true ∨ (p.1 = q.1 ∧ (statsLtB p.2 q.2 = true ∨ p.2 = q.2))

instance : DecidableRel itemLe := fun p q => by
  unfold itemLe
  infer_instance

instance : IsTrans (Key × Stats) itemLe where
  trans p q r h1 h2 := by
    unfold itemLe at h1 h2 ⊢
    rcases h1 with h1 | ⟨h1k, h1s⟩
    · rcases h2 with h2 | ⟨h2k, h2s⟩
      · exact Or.inl (bytesLtB_trans _ _ _ h1 h2)
      · exact Or.inl (h2k ▸ h1)
    · rcases h2 with h2 | ⟨h2k, h2s⟩
      · exact Or.inl (h1k ▸ h2)
      · refine Or.inr ⟨h1k.trans h2k, ?_⟩
        rcases h1s with h1s | h1s
        · rcases h2s with h2s | h2s
          · exact Or.inl (statsLtB_trans _ _ _ h1s h2s)
          · exact Or.inl (h2s ▸ h1s)
        · rcases h2s with h2s | h2s
          · exact Or.inl (h1s ▸ h2s)
          · exact Or.inr (h1s.trans h2s)

instance : IsTotal (Key × Stats) itemLe where
  total p q := by
    unfold itemLe
    rcases bytesLtB_total p.1 q.1 with h | h | h
    · exact Or.inl (Or.inl h)
    · rcases statsLtB_total p.2 q.2 with h2 | h2 | h2
      · exact Or.inl (Or.inr ⟨h, Or.inl h2⟩)
      · exact Or.inl (Or.inr ⟨h, Or.inr h2⟩)
      · exact Or.inr (Or.inr ⟨h.symm, Or.inl h2⟩)
    · exact Or.inr (Or.inl h)

instance : IsAntisymm (Key × Stats) itemLe where
  antisymm p q h1 h2 := by
    unfold itemLe at h1 h2
    rcases h1 with h1 | ⟨h1k, h1s⟩
    · rcases h2 with h2 | ⟨h2k, h2s⟩
      · exact (bytesLtB_asymm _ _ h1 h2).elim
      · rw [h2k] at h1
        rw [bytesLtB_irrefl] at h1
        exact absurd h1 (by simp)
    · rcases h2 with h2 | ⟨h2k, h2s⟩
      · rw [h1k] at h2
        rw [bytesLtB_irrefl] at h2
        exact absurd h2 (by simp)
      · rcases h1s with h1s | h1s
        · rcases h2s with h2s | h2s
          · exact (statsLtB_asymm _ _ h1s h2s).elim
          · rw [h2s] at h1s
            rcases p with ⟨pk, ps⟩
            rcases q with ⟨qk, qs⟩
            simp only at h1k h1s h2s
            exact (statsLtB_asymm _ _ h1s h1s).elim
        · rcases p with ⟨pk, ps⟩
          rcases q with ⟨qk, qs⟩
          simp only at h1k h1s
          rw [Prod.mk.injEq]
          exact ⟨h1k, h1s⟩

/-- `sorted(result.items())`: CPython's sort is stable, but with a total,
transitive, antisymmetric order the sorted sequence is unique, so insertion
sort gives the same list. -/
def sortItems (d : AList) : AList := List.insertionSort itemLe d

/-! ## Rendering and the engine (`process_file` lines 191–196) -/

/-- `location.decode('utf-8')` for ASCII keys (the spec fixes ASCII input). -/
def bytesToStr (k : Key) : String := String.mk (k.map Char.ofNat)

/-- `f"{n/10:.1f}"` for an integer accumulator component `n`: the correctly
rounded double of `n / 10`, rendered with one fractional digit. -/
def fmtTemp (n : ℤ) : String := fmt1 (mkDbl n 10)

/-- The mean field `(sum / count / 10) if count != 0 else 0`, rendered with
one fractional digit.  The mean is computed only here, at format time. -/
def fmtMean (sum : ℤ) (count : ℕ) : String :=
  if count ≠ 0 then fmt1 (div10D (mkDbl sum count)) else fmt1 (mkDbl 0 1)

/-- One output line `key=min/mean/max`. -/
def lineOf (p : Key × Stats) : String :=
  bytesToStr p.1 ++ "=" ++ fmtTemp p.2.min ++ "/" ++
    fmtMean p.2.sum p.2.count ++ "/" ++ fmtTemp p.2.max

/-- The printed output: one line per key of the final mapping, in sorted
item order. -/
def formatOut (d : AList) : List String := (sortItems d).map lineOf

/-- The final mapping computed by the engine: plan the ranges, scan each
range, fold the partial results. -/
def engineRun (parse : List ℕ → ℤ) (bsize : ℕ) (bs : List ℕ) (w : ℕ) : AList :=
  reduceAll ((getFileChunks bs w).map
    (fun r => procChunk parse bsize (sliceBs bs r.1 r.2)))

/-- The engine's standard output as the list of printed lines. -/
def engineOutput (parse : List ℕ → ℤ) (bsize : ℕ) (bs : List ℕ) (w : ℕ) :
    List String :=
  formatOut (engineRun parse bsize bs w)

/-! ### The concrete value conversion -/

/-- A run of decimal digit bytes, as a number. -/
def digitsToNatAux : List ℕ → ℕ → Option ℕ
  | [], acc => some acc
  | d :: ds, acc =>
    if 48 ≤ d ∧ d ≤ 57 then digitsToNatAux ds (acc * 10 + (d - 48)) else none

/-- Nonempty run of decimal digit bytes. -/
def digitsToNat (ds : List ℕ) : Option ℕ :=
  match ds with
  | [] => none
  | _ => digitsToNatAux ds 0

/-- `10 * value` for an unsigned one-fractional-digit decimal token
(`"12.3"` ↦ `123`); `0` for any other byte sequence (outside the record
format, where `float()` would raise instead — see the error-handling
claims). -/
def tokenNumerNat (v : List ℕ) : ℕ :=
  match splitAtByte 46 v with
  | some (ip, fp) =>
    match digitsToNat ip, fp with
    | some i, [d] => if 48 ≤ d ∧ d ≤ 57 then i * 10 + (d - 48) else 0
    | _, _ => 0
  | none => 0

/-- Signed one-fractional-digit token value, scaled by 10. -/
def tokenNumer (v : List ℕ) : ℤ :=
  match v with
  | 45 :: rest => -(tokenNumerNat rest : ℤ)
  | _ => (tokenNumerNat v : ℤ)

/-- The scanner's value conversion `int(float(data[index:newline]) * 10)`
(v2 line 139; v1 line 60), through the exact binary64 pipeline. -/
def pyParseVal (v : List ℕ) : ℤ := pyConv (tokenNumer v)

/-! ### Mappings with equal lookups print identically -/

theorem lookupA_of_mem {d : AList} (hnd : NoDupK d) :
    ∀ {k : Key} {s : Stats}, (k, s) ∈ d → lookupA d k = some s := by
  induction d with
  | nil => intro k s h; simp at h
  | cons p rest ih =>
    intro k s h
    rcases p with ⟨k2, s2⟩
    have hnd2 : NoDupK rest := by
      have hcons : (k2 :: keysOf rest).Nodup := hnd
      exact (List.nodup_cons.mp hcons).2
    rcases List.mem_cons.mp h with heq | htail
    · rw [Prod.mk.injEq] at heq
      obtain ⟨hk, hs⟩ := heq
      subst hk
      subst hs
      exact lookupA_cons_self
    · have hk : k ≠ k2 := by
        intro hc
        subst hc
        have hcons : (k :: keysOf rest).Nodup := hnd
        have hmem : k ∈ keysOf rest :=
          List.mem_map.mpr ⟨(k, s), htail, rfl⟩
        exact (List.nodup_cons.mp hcons).1 hmem
      rw [lookupA_cons_ne hk]
      exact ih hnd2 htail

theorem mem_of_lookupA {d : AList} :
    ∀ {k : Key} {s : Stats}, lookupA d k = some s → (k, s) ∈ d := by
  induction d with
  | nil => intro k s h; simp [lookupA] at h
  | cons p rest ih =>
    intro k s h
    rcases p with ⟨k2, s2⟩
    by_cases hk : k2 = k
    · subst hk
      rw [lookupA_cons_self] at h
      simp at h
      subst h
      exact List.mem_cons_self _ _
    · rw [lookupA_cons_ne (fun hc => hk hc.symm)] at h
      exact List.mem_cons_of_mem _ (ih h)

theorem perm_of_lookup_eq {d1 d2 : AList} (h1 : NoDupK d1) (h2 : NoDupK d2)
    (hl : ∀ k, lookupA d1 k = lookupA d2 k) : d1.Perm d2 := by
  rw [List.perm_ext_iff_of_nodup (List.Nodup.of_map _ h1) (List.Nodup.of_map _ h2)]
  intro p
  rcases p with ⟨k, s⟩
  constructor
  · intro hmem
    exact mem_of_lookupA ((hl k) ▸ lookupA_of_mem h1 hmem)
  · intro hmem
    exact mem_of_lookupA ((hl k).symm ▸ lookupA_of_mem h2 hmem)

/-- Two dict results that agree at every key produce identical output. -/
theorem formatOut_congr {d1 d2 : AList} (h1 : NoDupK d1) (h2 : NoDupK d2)
    (hl : ∀ k, lookupA d1 k = lookupA d2 k) : formatOut d1 = formatOut d2 := by
  have hp : d1.Perm d2 := perm_of_lookup_eq h1 h2 hl
  have hs : sortItems d1 = sortItems d2 :=
    List.eq_of_perm_of_sorted
      ((List.perm_insertionSort itemLe d1).trans
        (hp.trans (List.perm_insertionSort itemLe d2).symm))
      (List.sorted_insertionSort itemLe d1)
      (List.sorted_insertionSort itemLe d2)
  unfold formatOut
  rw [hs]

/-! ## Engine-level composition -/

theorem chunked_lookup (parse : List ℕ → ℤ) (bsize : ℕ) (hb : 1 ≤ bsize)
    (bs : List ℕ) (hwf : WFstream bs) (rs : List (ℕ × ℕ))
    (hchain : ChainFrom bs 0 rs)
    (hfacts : ∀ r ∈ rs, isNewLine bs r.2 = true ∨ r.2 = bs.length)
    (x : Key) :
    lookupA (reduceAll (rs.map
        (fun r => procChunk parse bsize (sliceBs bs r.1 r.2)))) x =
      lookupA (processStream parse bs) x := by
  have hmap : rs.map (fun r => procChunk parse bsize (sliceBs bs r.1 r.2)) =
      rs.map (fun r => processStream parse (sliceBs bs r.1 r.2)) :=
    List.map_congr_left (fun r hr => procChunk_eq_processStream parse bsize hb _)
  rw [hmap]
  have hnd : ∀ p ∈ rs.map (fun r => processStream parse (sliceBs bs r.1 r.2)),
      NoDupK p := by
    intro p hp
    rcases List.mem_map.mp hp with ⟨r, hr, hpr⟩
    rw [← hpr]
    exact NoDupK_processStream parse _
  show lookupA ((rs.map
    (fun r => processStream parse (sliceBs bs r.1 r.2))).foldl mergeMaps []) x = _
  rw [lookupA_foldl_mergeMaps _ hnd x []]
  rw [List.map_map]
  exact lookup_chain parse bs rs 0 hchain hfacts hwf x

theorem chunked_output (parse : List ℕ → ℤ) (bsize : ℕ) (hb : 1 ≤ bsize)
    (bs : List ℕ) (hwf : WFstream bs) (rs : List (ℕ × ℕ))
    (hchain : ChainFrom bs 0 rs)
    (hfacts : ∀ r ∈ rs, isNewLine bs r.2 = true ∨ r.2 = bs.length) :
    formatOut (reduceAll (rs.map
        (fun r => procChunk parse bsize (sliceBs bs r.1 r.2)))) =
      formatOut (processStream parse bs) :=
  formatOut_congr (NoDupK_reduceAll _) (NoDupK_processStream parse bs)
    (chunked_lookup parse bsize hb bs hwf rs hchain hfacts)

/-- Any worker count and any read-buffer size give the canonical output: the
formatted single-pass scan of the whole file. -/
theorem engineOutput_canonical (parse : List ℕ → ℤ) (bsize : ℕ)
    (hb : 1 ≤ bsize) (bs : List ℕ) (hwf : WFstream bs) (w : ℕ) :
    engineOutput parse bsize bs w = formatOut (processStream parse bs) := by
  unfold engineOutput engineRun
  obtain ⟨hchain, hfacts⟩ := getFileChunks_spec bs w
  exact chunked_output parse bsize hb bs hwf _ hchain
    (fun r hr => (hfacts r hr).2.1)

/-! ## The v1 scanner (`map_chunk`, sergei_romanov_v1.py lines 46–74) -/

/-- `f.readline()` at `pos`: the bytes up to and including the next
terminator, or to end of file. -/
def readLine (bs : List ℕ) (pos : ℕ) : List ℕ :=
  match splitAtByte nlByte (bs.drop pos) with
  | some (l, _) => l ++ [nlByte]
  | none => bs.drop pos

/-- `line.rstrip(b"\n")` for a `readline()` result (at most one trailing
terminator). -/
def stripNl (l : List ℕ) : List ℕ :=
  match splitAtByte nlByte l with
  | some (pre, _) => pre
  | none => l

/-- `location, temp = line.split(b";")` then the update: `none` models the
`ValueError` a line without exactly one delimiter raises. -/
def v1ProcessLine (parse : List ℕ → ℤ) (res : AList) (stripped : List ℕ) :
    Option AList :=
  match splitAtByte semiByte stripped with
  | none => none
  | some (k, v) => if semiByte ∈ v then none else some (updateA res k (parse v))

/-- The `while f.tell() < end:` readline loop of `map_chunk`. -/
def v1MapChunkF (parse : List ℕ → ℤ) (bs : List ℕ) (e : ℕ) :
    ℕ → ℕ → AList → Option AList
  | 0, _, res => some res
  | fuel + 1, pos, res =>
    if pos < e then
      let line := readLine bs pos
      if line = [] then some res
      else
        match v1ProcessLine parse res (stripNl line) with
        | none => none
        | some res2 => v1MapChunkF parse bs e fuel (pos + line.length) res2
    else some res

/-- `map_chunk` on range `[s, e)` (the v1 worker reads whole lines, so it
does parse a final line with no trailing terminator). -/
def v1MapChunk (parse : List ℕ → ℤ) (bs : List ℕ) (s e : ℕ) : Option AList :=
  v1MapChunkF parse bs e (bs.length + 1) s []

/-! ## Auxiliary facts for the claim theorems -/

theorem isNewLine_iff (bs : List ℕ) (p : ℕ) :
    isNewLine bs p = true ↔ (p = 0 ∨ bs.getD (p - 1) 0 = nlByte) := by
  unfold isNewLine
  simp

theorem chainFrom_mem (bs : List ℕ) :
    ∀ (rs : List (ℕ × ℕ)) (s : ℕ), ChainFrom bs s rs →
      ∀ r ∈ rs, r.1 < r.2 ∧ r.2 ≤ bs.length := by
  intro rs
  induction rs with
  | nil => intro s _ r hr; simp at hr
  | cons r0 rest ih =>
    intro s hchain r hr
    obtain ⟨h1, h2, h3⟩ := hchain
    rcases List.mem_cons.mp hr with hr | hr
    · subst hr
      exact ⟨h1 ▸ h2, chainFrom_le bs rest r.2 h3⟩
    · exact ih r0.2 h3 r hr

theorem chunksFromF_stop (bs : List ℕ) (csize : ℕ) :
    ∀ (fuel start : ℕ), bs.length ≤ start →
      chunksFromF bs csize fuel start = [] := by
  intro fuel start h
  cases fuel with
  | zero => rfl
  | succ fuel =>
    show (if start < bs.length then _ else []) = []
    rw [if_neg (by omega)]

theorem findBack_last_nl (bs : List ℕ) (h0 : bs ≠ [])
    (h : bs.getD (bs.length - 1) 0 = nlByte) :
    findBack bs bs.length = bs.length := by
  have hlen : 1 ≤ bs.length := List.length_pos.mpr h0
  obtain ⟨p, hp⟩ : ∃ p, bs.length = p + 1 := ⟨bs.length - 1, by omega⟩
  rw [hp]
  show (if bs.getD p 0 == nlByte then p + 1 else findBack bs p) = p + 1
  have h2 : bs.getD p 0 = nlByte := by
    rw [show p = bs.length - 1 by omega]
    exact h
  rw [List.getD_eq_getElem?_getD] at h2
  rw [if_pos (by simp [h2])]

/-- `get_file_chunks` with one worker on a terminator-ended file: a single
range spanning the whole file. -/
theorem getFileChunks_one (bs : List ℕ) (h0 : bs ≠ [])
    (h : bs.getD (bs.length - 1) 0 = nlByte) :
    getFileChunks bs 1 = [(0, bs.length)] := by
  have hlen : 1 ≤ bs.length := List.length_pos.mpr h0
  unfold getFileChunks
  rw [Nat.div_one]
  show (if 0 < bs.length then
        (0, if findBack bs (min bs.length (0 + bs.length)) = 0 then nextLine bs 0
            else findBack bs (min bs.length (0 + bs.length))) ::
          chunksFromF bs bs.length bs.length
            (if findBack bs (min bs.length (0 + bs.length)) = 0 then nextLine bs 0
             else findBack bs (min bs.length (0 + bs.length)))
      else []) = [(0, bs.length)]
  rw [if_pos (by omega)]
  have hmin : min bs.length (0 + bs.length) = bs.length := by omega
  rw [hmin, findBack_last_nl bs h0 h]
  rw [if_neg (by omega)]
  rw [chunksFromF_stop bs bs.length bs.length bs.length (le_refl _)]

/-- `mergeMaps` appends a disjoint-key result unchanged. -/
theorem mergeMaps_append :
    ∀ (d acc : AList), NoDupK (acc ++ d) → mergeMaps acc d = acc ++ d := by
  intro d
  induction d with
  | nil => intro acc _; simp [mergeMaps]
  | cons p rest ih =>
    intro acc hnd
    have hnotin : p.1 ∉ keysOf acc := by
      intro hmem
      unfold NoDupK keysOf at hnd
      rw [List.map_append, List.nodup_append] at hnd
      exact hnd.2.2 hmem (by simp)
    have hnone : lookupA acc p.1 = none := lookupA_eq_none_iff.mpr hnotin
    show mergeMaps (mergeInto acc p) rest = acc ++ p :: rest
    have hmi : mergeInto acc p = acc ++ [p] := by
      unfold mergeInto
      rw [hnone]
    rw [hmi]
    have hnd2 : NoDupK ((acc ++ [p]) ++ rest) := by
      have : (acc ++ [p]) ++ rest = acc ++ p :: rest := by simp
      rw [this]
      exact hnd
    rw [ih (acc ++ [p]) hnd2]
    simp

/-- Left identity: folding a dict into the empty accumulated result copies
it. -/
theorem mergeMaps_nil_left (d : AList) (hnd : NoDupK d) : mergeMaps [] d = d :=
  mergeMaps_append d [] hnd

set_option maxRecDepth 1000000 in
set_option maxHeartbeats 16000000 in
theorem pyConvNat_all_aux :
    (List.range 1000).all (fun m => pyConvNat m == m) = true := by decide

theorem pyConvNat_all : ∀ m : ℕ, m ≤ 999 → pyConvNat m = m := by
  intro m hm
  have hall := pyConvNat_all_aux
  rw [List.all_eq_true] at hall
  have hmm := hall m (List.mem_range.mpr (by omega))
  simpa using hmm

/-! # Claim theorems -/

/-- C1: For every input file in the specified record format and any two
worker counts `W1, W2 ≥ 1` (and any read-buffer sizes), the engine — chunk
planning, per-chunk scanning, merging, formatting — produces byte-identical
standard output; the final per-key statistics are independent of the worker
count, of the exact record-aligned chunk-boundary placement, and of the
order in which partial results are merged. -/
theorem claimC1_engine_output_independent (parse : List ℕ → ℤ) (bs : List ℕ)
    (hwf : WFstream bs) :
    (∀ b1 b2 w1 w2 : ℕ, 1 ≤ b1 → 1 ≤ b2 → 1 ≤ w1 → 1 ≤ w2 →
      engineOutput parse b1 bs w1 = engineOutput parse b2 bs w2) ∧
    (∀ bsize : ℕ, 1 ≤ bsize → ∀ rs : List (ℕ × ℕ), ChainFrom bs 0 rs →
      (∀ r ∈ rs, isNewLine bs r.2 = true ∨ r.2 = bs.length) →
      formatOut (reduceAll (rs.map
          (fun r => procChunk parse bsize (sliceBs bs r.1 r.2)))) =
        formatOut (processStream parse bs)) ∧
    (∀ ps qs : List AList, (∀ p ∈ ps, NoDupK p) → ps.Perm qs →
      formatOut (reduceAll ps) = formatOut (reduceAll qs)) := by
  refine ⟨?_, ?_, ?_⟩
  · intro b1 b2 w1 w2 h1 h2 _ _
    rw [engineOutput_canonical parse b1 h1 bs hwf w1,
      engineOutput_canonical parse b2 h2 bs hwf w2]
  · intro bsize hb rs hchain hfacts
    exact chunked_output parse bsize hb bs hwf rs hchain hfacts
  · intro ps qs hnd hperm
    exact formatOut_congr (NoDupK_reduceAll ps) (NoDupK_reduceAll qs)
      (fun x => lookupA_reduceAll_perm hperm hnd x)

theorem claimC1_witness :
    WFstream (strBytes "Hamburg;12.0\nBilbao;8.5\nHamburg;7.0\n") ∧
    engineOutput pyParseVal 1048576
        (strBytes "Hamburg;12.0\nBilbao;8.5\nHamburg;7.0\n") 1 =
      engineOutput pyParseVal 7
        (strBytes "Hamburg;12.0\nBilbao;8.5\nHamburg;7.0\n") 3 :=
  ⟨by decide,
    (claimC1_engine_output_independent pyParseVal _ (by decide)).1
      1048576 7 1 3 (by omega) (by omega) (by omega) (by omega)⟩

/-- C2 counterexample: the claim as stated is false.  The file `a;1.0`
(final line missing its terminator) is planned as the single record-aligned
chunk `[0, 5)`; the worker scan of that chunk returns the empty mapping,
omitting the record `a;1.0` whose bytes lie in the range. -/
theorem claimC2_counterexample :
    getFileChunks (strBytes "a;1.0") 1 = [(0, 5)] ∧
    procChunk pyParseVal 1048576 (sliceBs (strBytes "a;1.0") 0 5) = [] := by
  constructor
  · decide
  · decide

/-- C2 amended: for every chunk and every read-buffer size `blocksize ≥ 1`,
the worker scan returns the same mapping as a single whole-chunk scan (the
blocksize never changes the returned mapping, even when a key or value
spans several buffer reads), and that mapping aggregates exactly the
terminator-ended records of the chunk; a trailing record not ended by a
terminator is dropped. -/
theorem claimC2_scan_aggregates_terminated_records (parse : List ℕ → ℤ)
    (bsize : ℕ) (hb : 1 ≤ bsize) (c : List ℕ) :
    procChunk parse bsize c = processStream parse c ∧
    (WFstream c → procChunk parse bsize c = foldRecords parse (termLines c)) := by
  refine ⟨procChunk_eq_processStream parse bsize hb c, fun hwf => ?_⟩
  rw [procChunk_eq_processStream parse bsize hb c]
  exact processStream_eq_foldRecords parse c hwf

theorem claimC2_witness :
    (procChunk pyParseVal 3 (strBytes "ab;1.0\ncd;2.0\nab;3.0\n") =
      processStream pyParseVal (strBytes "ab;1.0\ncd;2.0\nab;3.0\n")) ∧
    (WFstream (strBytes "ab;1.0\ncd;2.0\nab;3.0\n") →
      procChunk pyParseVal 3 (strBytes "ab;1.0\ncd;2.0\nab;3.0\n") =
        foldRecords pyParseVal (termLines (strBytes "ab;1.0\ncd;2.0\nab;3.0\n"))) :=
  claimC2_scan_aggregates_terminated_records pyParseVal 3 (by omega) _

/-- C3: merging two accumulator entries for the same key takes the
componentwise minimum and maximum and adds counts and sums with exact
integer addition; the merge is commutative and associative, and therefore
the mapping folded by the merger is identical, at every key, for every
permutation of the sequence of partial results (zero error bound). -/
theorem claimC3_merge_commutative_associative :
    (∀ a b : Stats, mergeStats a b =
      ⟨min a.min b.min, max a.max b.max, a.sum + b.sum, a.count + b.count⟩) ∧
    (∀ a b : Stats, mergeStats a b = mergeStats b a) ∧
    (∀ a b c : Stats,
      mergeStats (mergeStats a b) c = mergeStats a (mergeStats b c)) ∧
    (∀ ps qs : List AList, (∀ p ∈ ps, NoDupK p) → ps.Perm qs →
      ∀ x : Key, lookupA (reduceAll ps) x = lookupA (reduceAll qs) x) :=
  ⟨mergeStats_eq, mergeStats_comm, mergeStats_assoc,
    fun _ _ hnd hperm x => lookupA_reduceAll_perm hperm hnd x⟩

theorem claimC3_witness :
    (∀ p ∈ [[(strBytes "a", single 10)], [(strBytes "b", single 20)]], NoDupK p) ∧
    lookupA (reduceAll [[(strBytes "a", single 10)], [(strBytes "b", single 20)]])
        (strBytes "a") =
      lookupA (reduceAll [[(strBytes "b", single 20)], [(strBytes "a", single 10)]])
        (strBytes "a") :=
  ⟨by decide,
    claimC3_merge_commutative_associative.2.2.2 _ _ (by decide)
      (List.Perm.swap _ _ _) (strBytes "a")⟩

/-- C4: for every range the planner generates, the byte preceding the start
is a line terminator or the start is 0, and the end is just past a line
terminator or equals the file size; the ranges exactly partition `[0, F)`:
consecutive, nonempty, no gaps, no overlaps, none splitting a record. -/
theorem claimC4_planner_alignment_partition (bs : List ℕ) (w : ℕ)
    (_hw : 1 ≤ w) :
    ChainFrom bs 0 (getFileChunks bs w) ∧
    ∀ r ∈ getFileChunks bs w,
      (r.1 = 0 ∨ bs.getD (r.1 - 1) 0 = nlByte) ∧
      (bs.getD (r.2 - 1) 0 = nlByte ∨ r.2 = bs.length) ∧
      r.1 < r.2 ∧ r.2 ≤ bs.length := by
  obtain ⟨hchain, hfacts⟩ := getFileChunks_spec bs w
  refine ⟨hchain, fun r hr => ?_⟩
  obtain ⟨hf1, hf2, hf3⟩ := hfacts r hr
  obtain ⟨hlt, hle⟩ := chainFrom_mem bs (getFileChunks bs w) 0 hchain r hr
  refine ⟨(isNewLine_iff bs r.1).mp hf1, ?_, hlt, hle⟩
  rcases hf2 with h | h
  · rcases (isNewLine_iff bs r.2).mp h with h0 | h0
    · omega
    · exact Or.inl h0
  · exact Or.inr h

theorem claimC4_witness :
    ChainFrom (strBytes "aa;1.0\nbb;2.0\nc;3.0\n") 0
        (getFileChunks (strBytes "aa;1.0\nbb;2.0\nc;3.0\n") 2) ∧
    ∀ r ∈ getFileChunks (strBytes "aa;1.0\nbb;2.0\nc;3.0\n") 2,
      (r.1 = 0 ∨ (strBytes "aa;1.0\nbb;2.0\nc;3.0\n").getD (r.1 - 1) 0 = nlByte) ∧
      ((strBytes "aa;1.0\nbb;2.0\nc;3.0\n").getD (r.2 - 1) 0 = nlByte ∨
        r.2 = (strBytes "aa;1.0\nbb;2.0\nc;3.0\n").length) ∧
      r.1 < r.2 ∧ r.2 ≤ (strBytes "aa;1.0\nbb;2.0\nc;3.0\n").length :=
  claimC4_planner_alignment_partition _ 2 (by omega)

/-- C5: for every well-formed value token — a signed decimal with exactly
one fractional digit in `[-99.9, 99.9]`, scaled numerator `n` with
`|n| ≤ 999` — the scanner's conversion `int(float(token) * 10)` (modelled
exactly over correctly rounded binary64 arithmetic) produces exactly the
integer `10` times the decimal value, with no rounding error. -/
theorem claimC5_fixed_point_conversion_exact (n : ℤ) (h : n.natAbs ≤ 999) :
    pyConv n = n ∧ ∀ v : List ℕ, tokenNumer v = n → pyParseVal v = n := by
  have hmain : pyConv n = n := by
    unfold pyConv
    by_cases hn : n < 0
    · rw [if_pos hn, pyConvNat_all n.natAbs h]
      omega
    · rw [if_neg hn, pyConvNat_all n.natAbs h]
      omega
  exact ⟨hmain, fun v hv => by unfold pyParseVal; rw [hv]; exact hmain⟩

theorem claimC5_witness :
    ((3 : ℤ).natAbs ≤ 999 ∧ pyConv 3 = 3 ∧
      pyParseVal (strBytes "0.3") = 3) ∧
    ((-999 : ℤ).natAbs ≤ 999 ∧ pyConv (-999) = -999 ∧
      pyParseVal (strBytes "-99.9") = -999) :=
  ⟨⟨by decide, (claimC5_fixed_point_conversion_exact 3 (by decide)).1,
      (claimC5_fixed_point_conversion_exact 3 (by decide)).2 _ (by decide)⟩,
    ⟨by decide, (claimC5_fixed_point_conversion_exact (-999) (by decide)).1,
      (claimC5_fixed_point_conversion_exact (-999) (by decide)).2 _ (by decide)⟩⟩

/-- C6: the claim is right and the v2 code is wrong (code bug).  On the
12-byte file `Hamburg;12.0` whose final line omits its trailing terminator,
the v2 engine drops the record entirely and prints nothing, while the same
file with the terminator prints the expected line; the sibling v1 scanner
(`map_chunk`, which reads whole lines) does aggregate the final record, as
the spec requires. -/
theorem claimC6_unterminated_final_record_dropped :
    engineOutput pyParseVal 1048576 (strBytes "Hamburg;12.0") 1 = [] ∧
    engineOutput pyParseVal 1048576 (strBytes "Hamburg;12.0\n") 1 =
      ["Hamburg=12.0/12.0/12.0"] ∧
    v1MapChunk pyParseVal (strBytes "Hamburg;12.0") 0 12 =
      some [(strBytes "Hamburg", ⟨120, 120, 120, 1⟩)] := by
  refine ⟨by decide, by decide, by decide⟩

/-- C7 counterexample: the claim as stated is false.  On a malformed input
whose first line has no delimiter (`x` followed by `y;2.0`), processing
does not fail fast with a parse error: the key scan runs past the line
terminator, and the engine writes a result line (computed from the merged
key `x\ny`) to standard output. -/
theorem claimC7_counterexample :
    engineOutput pyParseVal 1048576 (strBytes "x\ny;2.0\n") 1 =
      ["x\ny=2.0/2.0/2.0"] := by
  decide

/-- C7 amended: malformed records are not detected.  A line with a missing
delimiter is silently merged into the following record's key (the key scan
consumes the line terminator), and an out-of-range value such as `123.4`
is accepted and aggregated normally; in both cases result lines computed
from the malformed input are written to standard output. -/
theorem claimC7_malformed_not_detected :
    processStream pyParseVal (strBytes "a\nb;1.5\n") =
      [(strBytes "a\nb", ⟨15, 15, 15, 1⟩)] ∧
    engineOutput pyParseVal 1048576 (strBytes "k;123.4\n") 1 =
      ["k=123.4/123.4/123.4"] := by
  refine ⟨by decide, by decide⟩

/-- C8: the formatter emits exactly one line per key of the final mapping,
keys in byte-wise lexicographic order, each line `key=min/mean/max` with
each number rendered with exactly one fractional digit in a single final
rounding step; the mean is computed only at format time from `sum` and
`count`, and `count = 0` never occurs for an emitted key, so the `count != 0`
guard in the mean expression never takes its `else` branch. -/
theorem claimC8_formatter_sorted_one_line_per_key (parse : List ℕ → ℤ)
    (bsize : ℕ) (bs : List ℕ) (w : ℕ) (hb : 1 ≤ bsize) :
    engineOutput parse bsize bs w =
      (sortItems (engineRun parse bsize bs w)).map lineOf ∧
    (engineOutput parse bsize bs w).length =
      (engineRun parse bsize bs w).length ∧
    List.Sorted itemLe (sortItems (engineRun parse bsize bs w)) ∧
    List.Pairwise (fun p q : Key × Stats => bytesLtB p.1 q.1 = true)
      (sortItems (engineRun parse bsize bs w)) ∧
    (∀ p ∈ engineRun parse bsize bs w, 1 ≤ p.2.count) ∧
    (∀ p ∈ engineRun parse bsize bs w,
      fmtMean p.2.sum p.2.count = fmt1 (div10D (mkDbl p.2.sum p.2.count))) := by
  have hnd : NoDupK (engineRun parse bsize bs w) := NoDupK_reduceAll _
  have hcp : ∀ p ∈ engineRun parse bsize bs w, 1 ≤ p.2.count := by
    apply countPos_reduceAll
    intro q hq
    rcases List.mem_map.mp hq with ⟨r, _, hqr⟩
    rw [← hqr, procChunk_eq_processStream parse bsize hb]
    exact countPos_processStream parse _
  have hperm := List.perm_insertionSort itemLe (engineRun parse bsize bs w)
  have hsorted := List.sorted_insertionSort itemLe (engineRun parse bsize bs w)
  refine ⟨rfl, ?_, hsorted, ?_, hcp, ?_⟩
  · show ((sortItems (engineRun parse bsize bs w)).map lineOf).length = _
    rw [List.length_map]
    exact hperm.length_eq
  · have hkeys : (List.map Prod.fst (sortItems (engineRun parse bsize bs w))).Nodup :=
      ((hperm.map Prod.fst).nodup_iff).mpr hnd
    have hne : List.Pairwise (fun p q : Key × Stats => p.1 ≠ q.1)
        (sortItems (engineRun parse bsize bs w)) :=
      List.pairwise_map.mp hkeys
    refine (hsorted.and hne).imp ?_
    intro p q hpq
    rcases hpq.1 with h | h
    · exact h
    · exact absurd h.1 hpq.2
  · intro p hp
    have hc := hcp p hp
    unfold fmtMean
    rw [if_pos (by omega)]

theorem claimC8_witness :
    engineOutput pyParseVal 2 (strBytes "b;1.0\na;2.0\n") 2 =
      (sortItems (engineRun pyParseVal 2 (strBytes "b;1.0\na;2.0\n") 2)).map lineOf ∧
    (engineOutput pyParseVal 2 (strBytes "b;1.0\na;2.0\n") 2).length =
      (engineRun pyParseVal 2 (strBytes "b;1.0\na;2.0\n") 2).length ∧
    List.Sorted itemLe (sortItems (engineRun pyParseVal 2 (strBytes "b;1.0\na;2.0\n") 2)) ∧
    List.Pairwise (fun p q : Key × Stats => bytesLtB p.1 q.1 = true)
      (sortItems (engineRun pyParseVal 2 (strBytes "b;1.0\na;2.0\n") 2)) ∧
    (∀ p ∈ engineRun pyParseVal 2 (strBytes "b;1.0\na;2.0\n") 2, 1 ≤ p.2.count) ∧
    (∀ p ∈ engineRun pyParseVal 2 (strBytes "b;1.0\na;2.0\n") 2,
      fmtMean p.2.sum p.2.count = fmt1 (div10D (mkDbl p.2.sum p.2.count))) :=
  claimC8_formatter_sorted_one_line_per_key pyParseVal 2
    (strBytes "b;1.0\na;2.0\n") 2 (by omega)

/-- C9 counterexample: the claim as stated is false.  On the five-byte file
`ab\ncd` with worker count `W = 1`, the planner emits two ranges
`[0,3), [3,5)` — more than `W`, and `W = 1` does not yield a single range
spanning the whole file. -/
theorem claimC9_counterexample :
    getFileChunks (strBytes "ab\ncd") 1 = [(0, 3), (3, 5)] := by
  decide

/-- C9 amended: the planner's ranges exactly cover `[0, F)` (their number
may exceed `W`); `F = 0` yields no ranges and, on an empty input file, the
engine writes empty output; `W = 1` yields exactly one range spanning the
whole file whenever the file ends with a line terminator (otherwise the
unterminated final line becomes an extra range). -/
theorem claimC9_planner_coverage (bs : List ℕ) (w : ℕ) (_hw : 1 ≤ w) :
    ChainFrom bs 0 (getFileChunks bs w) ∧
    (bs = [] → getFileChunks bs w = [] ∧
      ∀ (parse : List ℕ → ℤ) (bsize : ℕ), engineOutput parse bsize bs w = []) ∧
    (bs ≠ [] → bs.getD (bs.length - 1) 0 = nlByte →
      getFileChunks bs 1 = [(0, bs.length)]) := by
  refine ⟨(getFileChunks_spec bs w).1, ?_,
    fun h0 hnl => getFileChunks_one bs h0 hnl⟩
  intro hnil
  subst hnil
  exact ⟨rfl, fun parse bsize => rfl⟩

theorem claimC9_witness :
    ChainFrom (strBytes "x;1.0\n") 0 (getFileChunks (strBytes "x;1.0\n") 4) ∧
    (strBytes "x;1.0\n" = [] → getFileChunks (strBytes "x;1.0\n") 4 = [] ∧
      ∀ (parse : List ℕ → ℤ) (bsize : ℕ),
        engineOutput parse bsize (strBytes "x;1.0\n") 4 = []) ∧
    (strBytes "x;1.0\n" ≠ [] →
      (strBytes "x;1.0\n").getD ((strBytes "x;1.0\n").length - 1) 0 = nlByte →
      getFileChunks (strBytes "x;1.0\n") 1 = [(0, (strBytes "x;1.0\n").length)]) :=
  claimC9_planner_coverage (strBytes "x;1.0\n") 4 (by omega)

/-- C10: a chunk containing zero complete records (no line terminator, in
particular any empty or garbage tail chunk) yields the empty partial
mapping, which the merger accepts: merging an empty partial into any
accumulated result leaves it unchanged, and folding a key-unique partial
into the empty accumulated result copies it exactly. -/
theorem claimC10_empty_partial_identity :
    (∀ (parse : List ℕ → ℤ) (c : List ℕ), nlByte ∉ c →
      processStream parse c = []) ∧
    (∀ res : AList, mergeMaps res [] = res) ∧
    (∀ d : AList, NoDupK d → mergeMaps [] d = d) := by
  refine ⟨?_, fun res => rfl, fun d hnd => mergeMaps_nil_left d hnd⟩
  intro parse c h
  exact scanLoop_fst_no_nl parse h [] none

theorem claimC10_witness :
    (nlByte ∉ strBytes "junk;12" ∧
      processStream pyParseVal (strBytes "junk;12") = []) ∧
    mergeMaps [(strBytes "a", single 5)] [] = [(strBytes "a", single 5)] ∧
    (NoDupK [(strBytes "a", single 5)] ∧
      mergeMaps [] [(strBytes "a", single 5)] = [(strBytes "a", single 5)]) :=
  ⟨⟨by decide, claimC10_empty_partial_identity.1 pyParseVal _ (by decide)⟩,
    claimC10_empty_partial_identity.2.1 _,
    ⟨by decide, claimC10_empty_partial_identity.2.2 _ (by decide)⟩⟩

end OneBRC
